import Mathlib

/-!
# SPI transfer queue of the STM32F4 driver (sw/lib/spi.c, sw/lib/spi.h)

Shallow embedding of the transfer queue and of the completion state machine:
`spi_run_xfer`, `spi_transfer` and `spi_dma_isr` of `spi.c`, over an explicit
machine state (descriptor memory, the device structure, the two DMA streams,
the GPIO output levels, the interrupt mask and the list of register writes).

Pointers to `spi_transfer_t` are addresses (`Nat`), a nullable pointer is an
`Option Nat` and `NULL` is `none`.  Buffer pointers are 32-bit addresses, so the
casts `(uint32_t)xfer->read_buff` keep the value.  Every address holds a descriptor, so that
only the null pointer cannot be dereferenced.  The loops of `spi_transfer`
walk `next` links and need not terminate on a cyclic chain: they take fuel.
-/

namespace SPI

/-! ## Data model -/

/-- Structure `gpio_pin_t` of sensor_config.h: the port (a `GPIO_TypeDef *`, here the
number of the port) and the pin mask (`uint16_t`). -/
structure gpio_pin_t where
  gpio : Nat
  pin : Nat
deriving DecidableEq, Repr

/-- Structure `spi_transfer_t` of spi.h. -/
structure spi_transfer_t where
  read_buff : Nat
  write_buff : Nat
  nss : Option gpio_pin_t
  count : Nat
  done : Nat
  next : Option Nat
deriving DecidableEq, Repr

/-- Structure `spi_t` of spi.h, the mutable part: the current transfer and the
initialisation flag (the `spi` and `config` members are constant pointers). -/
structure spi_t where
  xfer : Option Nat
  is_init : Nat
deriving DecidableEq, Repr

/-- Registers of a `DMA_Stream_TypeDef` that the driver touches. -/
structure DMA_Stream where
  CR : Nat
  NDTR : Nat
  M0AR : Nat
deriving DecidableEq, Repr

/-- The two streams of `spi_config_t`: `dma_rx_stream` and `dma_tx_stream`. -/
inductive Stream where
  | dma_rx_stream
  | dma_tx_stream
deriving DecidableEq, Repr

/-- One write to a hardware register, or one call of a flag-clearing routine of the
peripheral library, in program order. -/
inductive RegWrite where
  | BSRRL (gpio val : Nat)
  | BSRRH (gpio val : Nat)
  | M0AR (s : Stream) (val : Nat)
  | NDTR (s : Stream) (val : Nat)
  | CR (s : Stream) (val : Nat)
  | DMA_ClearFlag (s : Stream)
  | DMA_ClearITPendingBit (s : Stream)
deriving DecidableEq, Repr

/-- The whole machine: the device `spi`, the memory of descriptors, both DMA
streams, the output level of every GPIO line (port, bit), the interrupt mask
(`true` after `__disable_irq`) and the register writes made so far, oldest
first. -/
structure Machine where
  spi : spi_t
  mem : Nat → spi_transfer_t
  rx : DMA_Stream
  tx : DMA_Stream
  odr : Nat → Nat → Bool
  primask : Bool
  writes : List RegWrite

/-- How a call ends: it returns, it reaches a `while(1);` and stays there with
the machine as it is, it reads through a null pointer, or the fuel of a loop
ran out. -/
inductive Outcome where
  | returned (m : Machine)
  | spin (m : Machine)
  | fault
  | timeout

/-- Memory write `mem[a] = v`. -/
def store (mem : Nat → spi_transfer_t) (a : Nat) (v : spi_transfer_t) :
    Nat → spi_transfer_t :=
  fun x => if x = a then v else mem x

/-! ## Hardware -/

/-- Modelled from the spec: the enable bit of the control register of a
data-movement engine (`DMA_SxCR_EN` of the device header, which is not in src). -/
def DMA_SxCR_EN : Nat := 1

/-- Modelled from the spec: a write of `val` to the set register `BSRRL` of port
`gpio` drives the lines whose bit is set in `val` (bits 0 to 15) to the high,
inactive level (the GPIO block is hardware; `spi_init_slave` writes `BSRRL` for
the initial inactive level). -/
def write_BSRRL (m : Machine) (gpio val : Nat) : Machine :=
  { m with
    odr := fun g i => if g = gpio ∧ i < 16 ∧ val.testBit i = true then true else m.odr g i
    writes := m.writes ++ [RegWrite.BSRRL gpio val] }

/-- Modelled from the spec: a write of `val` to the reset register `BSRRH` of port
`gpio` drives the lines whose bit is set in `val` (bits 0 to 15) to the low,
active level. -/
def write_BSRRH (m : Machine) (gpio val : Nat) : Machine :=
  { m with
    odr := fun g i => if g = gpio ∧ i < 16 ∧ val.testBit i = true then false else m.odr g i
    writes := m.writes ++ [RegWrite.BSRRH gpio val] }

/-- Read access to a stream. -/
def Machine.stream (m : Machine) : Stream → DMA_Stream
  | Stream.dma_rx_stream => m.rx
  | Stream.dma_tx_stream => m.tx

/-- Write access to a stream. -/
def Machine.setStream (m : Machine) (s : Stream) (v : DMA_Stream) : Machine :=
  match s with
  | Stream.dma_rx_stream => { m with rx := v }
  | Stream.dma_tx_stream => { m with tx := v }

/-- Assignment `stream->M0AR = val`. -/
def write_M0AR (m : Machine) (s : Stream) (val : Nat) : Machine :=
  { m.setStream s { m.stream s with M0AR := val } with
    writes := m.writes ++ [RegWrite.M0AR s val] }

/-- Assignment `stream->NDTR = val`. -/
def write_NDTR (m : Machine) (s : Stream) (val : Nat) : Machine :=
  { m.setStream s { m.stream s with NDTR := val } with
    writes := m.writes ++ [RegWrite.NDTR s val] }

/-- Assignment `stream->CR = val`. -/
def write_CR (m : Machine) (s : Stream) (val : Nat) : Machine :=
  { m.setStream s { m.stream s with CR := val } with
    writes := m.writes ++ [RegWrite.CR s val] }

/-- Modelled from the spec: `DMA_Cmd(stream, DISABLE)` of the peripheral library
(not in src) stops the data-movement engine, `stream->CR &= ~DMA_SxCR_EN` on a
32-bit register. -/
def DMA_Cmd_DISABLE (m : Machine) (s : Stream) : Machine :=
  write_CR m s ((m.stream s).CR &&& (0xFFFFFFFF ^^^ DMA_SxCR_EN))

/-- Modelled from the spec: `DMA_ClearFlag` of the peripheral library (not in src)
acknowledges a completion flag of the engine; only the call is recorded. -/
def DMA_ClearFlag (m : Machine) (s : Stream) : Machine :=
  { m with writes := m.writes ++ [RegWrite.DMA_ClearFlag s] }

/-- Modelled from the spec: `DMA_ClearITPendingBit` of the peripheral library (not
in src) acknowledges the completion signal; only the call is recorded. -/
def DMA_ClearITPendingBit (m : Machine) (s : Stream) : Machine :=
  { m with writes := m.writes ++ [RegWrite.DMA_ClearITPendingBit s] }

/-- The engine of stream `s` is enabled: bit `DMA_SxCR_EN` of its `CR` is set. -/
def enabled (m : Machine) (s : Stream) : Prop :=
  (m.stream s).CR &&& DMA_SxCR_EN = DMA_SxCR_EN

instance (m : Machine) (s : Stream) : Decidable (enabled m s) := by
  unfold enabled; infer_instance

/-- Line `i` of port `g` is at its active (low) level. -/
def asserted (m : Machine) (g i : Nat) : Prop := m.odr g i = false

instance (m : Machine) (g i : Nat) : Decidable (asserted m g i) := by
  unfold asserted; infer_instance

/-! ## The driver -/

/-- Function `spi_run_xfer` of spi.c: assign and start a transfer. -/
def spi_run_xfer (m : Machine) (xfer : Nat) : Machine :=
  let x := m.mem xfer
  let m := { m with spi := { m.spi with xfer := some xfer } }
  let m := match x.nss with
    | some nss => write_BSRRH m nss.gpio nss.pin
    | none => m
  let m := write_M0AR m Stream.dma_rx_stream x.read_buff
  let m := write_M0AR m Stream.dma_tx_stream x.write_buff
  let m := write_NDTR m Stream.dma_rx_stream x.count
  let m := write_NDTR m Stream.dma_tx_stream x.count
  let m := write_CR m Stream.dma_rx_stream (m.rx.CR ||| DMA_SxCR_EN)
  write_CR m Stream.dma_tx_stream (m.tx.CR ||| DMA_SxCR_EN)

/-- First loop of `spi_transfer`:
`for(old_xfer = xfer; old_xfer != NULL; old_xfer = old_xfer->next) old_xfer->done = 0;`
It returns `none` when the fuel runs out. -/
def clear_done : Nat → (Nat → spi_transfer_t) → Option Nat → Option (Nat → spi_transfer_t)
  | _, mem, none => some mem
  | 0, _, some _ => none
  | fuel + 1, mem, some a =>
    let mem1 := store mem a { mem a with done := 0 }
    clear_done fuel mem1 (mem1 a).next

/-- How the second loop of `spi_transfer` ends. -/
inductive Walk where
  | last (old_xfer : Nat)
  | spin
  | timeout
deriving DecidableEq, Repr

/-- Second loop of `spi_transfer`:
`for(;old_xfer->next != NULL; old_xfer = old_xfer->next){ if(old_xfer == xfer) while(1); }`
It ends at the node whose `next` is `NULL`. -/
def walk : Nat → (Nat → spi_transfer_t) → Nat → Option Nat → Walk
  | fuel, mem, old_xfer, xfer =>
    match (mem old_xfer).next with
    | none => Walk.last old_xfer
    | some n =>
      if some old_xfer = xfer then Walk.spin
      else match fuel with
        | 0 => Walk.timeout
        | fuel + 1 => walk fuel mem n xfer

/-- Function `spi_transfer` of spi.c.  After the first loop `__disable_irq()` sets
the interrupt mask; `__enable_irq()` clears it on return; in a `while(1);` the
mask stays set. -/
def spi_transfer (fuel : Nat) (m : Machine) (xfer : Option Nat) : Outcome :=
  match clear_done fuel m.mem xfer with
  | none => Outcome.timeout
  | some mem1 =>
    -- __disable_irq();
    let m := { m with mem := mem1, primask := true }
    let old_xfer := m.spi.xfer
    if old_xfer = xfer then Outcome.spin m
    else match old_xfer with
      | some o =>
        match walk fuel m.mem o xfer with
        | Walk.timeout => Outcome.timeout
        | Walk.spin => Outcome.spin m
        | Walk.last l =>
          Outcome.returned
            { m with mem := store m.mem l { m.mem l with next := xfer }, primask := false }
      | none =>
        -- here xfer is not NULL, as old_xfer == xfer was excluded
        match xfer with
        | some x => Outcome.returned { spi_run_xfer m x with primask := false }
        | none => Outcome.fault

/-- Body of `spi_dma_isr` of spi.c up to `spi->xfer->done = 1;`, for the active
descriptor at address `a`: deassert its select line, disable both streams, clear
the flags, set `done`. -/
def isr_finish (m : Machine) (a : Nat) : Machine :=
  let m := match (m.mem a).nss with
    | some nss => write_BSRRL m nss.gpio nss.pin
    | none => m
  let m := DMA_Cmd_DISABLE m Stream.dma_tx_stream
  let m := DMA_Cmd_DISABLE m Stream.dma_rx_stream
  let m := DMA_ClearFlag m Stream.dma_rx_stream
  let m := DMA_ClearFlag m Stream.dma_tx_stream
  let m := DMA_ClearITPendingBit m Stream.dma_rx_stream
  { m with mem := store m.mem a { m.mem a with done := 1 } }

/-- Function `spi_dma_isr` of spi.c.  The value of
`DMA_GetITStatus(conf->dma_rx_stream, conf->dma_rx_tcif)` (peripheral library,
hardware status) is the argument `it_status`.  Reading `spi->xfer->nss` through
a null `spi->xfer` is a fault. -/
def spi_dma_isr (it_status : Bool) (m : Machine) : Outcome :=
  if it_status then
    match m.spi.xfer with
    | none => Outcome.fault
    | some a =>
      let m := isr_finish m a
      match (m.mem a).next with
      | some n => Outcome.returned (spi_run_xfer m n)
      | none => Outcome.returned { m with spi := { m.spi with xfer := none } }
  else Outcome.returned m

/-! ## Queues -/

/-- The chain of `next` links that starts at pointer `p` is the finite list `l`
of addresses and ends with `NULL`. -/
def IsChain (mem : Nat → spi_transfer_t) : Option Nat → List Nat → Prop
  | p, [] => p = none
  | p, a :: l => p = some a ∧ IsChain mem (mem a).next l

instance IsChain.decide (mem : Nat → spi_transfer_t) :
    (p : Option Nat) → (l : List Nat) → Decidable (IsChain mem p l)
  | p, [] => inferInstanceAs (Decidable (p = none))
  | p, a :: l =>
    @instDecidableAnd _ _ (inferInstanceAs (Decidable (p = some a)))
      (IsChain.decide mem (mem a).next l)

/-- The queue of the device is `l`: the chain from the active reference
`spi->xfer`; its head, if any, is the active descriptor. -/
def Queue (m : Machine) (l : List Nat) : Prop := IsChain m.mem m.spi.xfer l

instance (m : Machine) (l : List Nat) : Decidable (Queue m l) := by
  unfold Queue; infer_instance

/-- Submit the descriptors of a list one after the other with `spi_transfer`. -/
def submit_all (fuel : Nat) : Machine → List Nat → Outcome
  | m, [] => Outcome.returned m
  | m, d :: ds =>
    match spi_transfer fuel m (some d) with
    | Outcome.returned m1 => submit_all fuel m1 ds
    | o => o

/-- Invoke the completion handler `n` times with the completion flag set. -/
def complete : Nat → Machine → Outcome
  | 0, m => Outcome.returned m
  | n + 1, m =>
    match spi_dma_isr true m with
    | Outcome.returned m1 => complete n m1
    | o => o

/-- The register writes of `spi_run_xfer` for descriptor `x`, in program order,
when the stream control registers hold `rxcr` and `txcr`. -/
def run_writes (x : spi_transfer_t) (rxcr txcr : Nat) : List RegWrite :=
  (match x.nss with
    | some nss => [RegWrite.BSRRH nss.gpio nss.pin]
    | none => []) ++
  [RegWrite.M0AR Stream.dma_rx_stream x.read_buff,
   RegWrite.M0AR Stream.dma_tx_stream x.write_buff,
   RegWrite.NDTR Stream.dma_rx_stream x.count,
   RegWrite.NDTR Stream.dma_tx_stream x.count,
   RegWrite.CR Stream.dma_rx_stream (rxcr ||| DMA_SxCR_EN),
   RegWrite.CR Stream.dma_tx_stream (txcr ||| DMA_SxCR_EN)]

/-- The register writes of the completion half of `spi_dma_isr` for the finishing
descriptor `x`, in program order, when the stream control registers hold `rxcr`
and `txcr`. -/
def isr_writes (x : spi_transfer_t) (rxcr txcr : Nat) : List RegWrite :=
  (match x.nss with
    | some nss => [RegWrite.BSRRL nss.gpio nss.pin]
    | none => []) ++
  [RegWrite.CR Stream.dma_tx_stream (txcr &&& (0xFFFFFFFF ^^^ DMA_SxCR_EN)),
   RegWrite.CR Stream.dma_rx_stream (rxcr &&& (0xFFFFFFFF ^^^ DMA_SxCR_EN)),
   RegWrite.DMA_ClearFlag Stream.dma_rx_stream,
   RegWrite.DMA_ClearFlag Stream.dma_tx_stream,
   RegWrite.DMA_ClearITPendingBit Stream.dma_rx_stream]

/-- The select line of descriptor `x` includes line `i` of port `g`. -/
def selects (x : spi_transfer_t) (g i : Nat) : Prop :=
  match x.nss with
  | some nss => g = nss.gpio ∧ i < 16 ∧ nss.pin.testBit i = true
  | none => False

instance (x : spi_transfer_t) (g i : Nat) : Decidable (selects x g i) := by
  unfold selects; split <;> infer_instance

/-- The memory after the first loop of `spi_transfer` has run over the chain `l`:
`done` is 0 on the nodes of `l`, all else is as before. -/
def cleared (mem : Nat → spi_transfer_t) (l : List Nat) : Nat → spi_transfer_t :=
  fun x => if x ∈ l then { mem x with done := 0 } else mem x

/-- Descriptor `d` is fresh for the device: its `next` link is `NULL` and it is
neither the active descriptor nor queued, the queue being a finite list that
does not hold `d`. -/
def Fresh (m : Machine) (d : Nat) : Prop :=
  (m.mem d).next = none ∧ ∃ l, Queue m l ∧ d ∉ l

/-- The states reached from `m0` by calls of `spi_transfer` on fresh descriptors
that return and by invocations of the completion handler that return, in any
order, with any status of the completion flag. -/
inductive Reachable (m0 : Machine) : Machine → Prop where
  | start : Reachable m0 m0
  | transfer (m m1 : Machine) (fuel d : Nat) : Reachable m0 m → Fresh m d →
      spi_transfer fuel m (some d) = Outcome.returned m1 → Reachable m0 m1
  | isr (m m1 : Machine) (it_status : Bool) : Reachable m0 m →
      spi_dma_isr it_status m = Outcome.returned m1 → Reachable m0 m1

/-! ## Interrupts

`spi_transfer` statement by statement, so that the completion interrupt can be
taken between two statements.  The handler runs only while the interrupt mask
is clear; an interrupt raised while the mask is set stays pending and is taken
as soon as `__enable_irq()` has cleared the mask. -/

/-- Program points of `spi_transfer`: the statement that is executed next. -/
inductive Pc where
  | clear (old_xfer : Option Nat)
  | disable_irq
  | load
  | walk (old_xfer : Nat)
  | link (old_xfer : Nat)
  | run (xfer : Nat)
  | enable_irq
  | spin
  | ret
deriving DecidableEq, Repr

/-- A call of `spi_transfer` in progress: the machine and the program point. -/
structure Thread where
  m : Machine
  pc : Pc

/-- The critical section of `spi_transfer`: the program points after
`__disable_irq()` up to and including `__enable_irq()`, the `while(1);` of the
duplicate guards among them. -/
def Pc.critical : Pc → Bool
  | Pc.load => true
  | Pc.walk _ => true
  | Pc.link _ => true
  | Pc.run _ => true
  | Pc.enable_irq => true
  | Pc.spin => true
  | _ => false

/-- One statement of `spi_transfer(spi, xfer)`:
* `clear p`: the test `old_xfer != NULL` of the first loop, then
  `old_xfer->done = 0; old_xfer = old_xfer->next`, or the exit of the loop;
* `disable_irq`: `__disable_irq();`
* `load`: `old_xfer = spi->xfer; if(old_xfer == xfer) while(1);` and the test
  `old_xfer != NULL` that selects the walk or `spi_run_xfer`;
* `walk o`: the test `old_xfer->next != NULL` of the second loop, then
  `if(old_xfer == xfer) while(1); old_xfer = old_xfer->next`, or the exit;
* `link o`: `old_xfer->next = xfer;`
* `run x`: `spi_run_xfer(spi, xfer);`
* `enable_irq`: `__enable_irq();`
* `spin`: `while(1);`
* `ret`: the call has returned. -/
def step (xfer : Option Nat) (c : Thread) : Thread :=
  match c.pc with
  | Pc.clear none => { c with pc := Pc.disable_irq }
  | Pc.clear (some a) =>
    { m := { c.m with mem := store c.m.mem a { c.m.mem a with done := 0 } }
      pc := Pc.clear (c.m.mem a).next }
  | Pc.disable_irq => { m := { c.m with primask := true }, pc := Pc.load }
  | Pc.load =>
    if c.m.spi.xfer = xfer then { c with pc := Pc.spin }
    else match c.m.spi.xfer, xfer with
      | some o, _ => { c with pc := Pc.walk o }
      | none, some x => { c with pc := Pc.run x }
      | none, none => { c with pc := Pc.spin }
  | Pc.walk o =>
    match (c.m.mem o).next with
    | none => { c with pc := Pc.link o }
    | some n => if some o = xfer then { c with pc := Pc.spin } else { c with pc := Pc.walk n }
  | Pc.link o =>
    { m := { c.m with mem := store c.m.mem o { c.m.mem o with next := xfer } }
      pc := Pc.enable_irq }
  | Pc.run x => { m := spi_run_xfer c.m x, pc := Pc.enable_irq }
  | Pc.enable_irq => { m := { c.m with primask := false }, pc := Pc.ret }
  | Pc.spin => c
  | Pc.ret => c

/-- The call at its entry. -/
def entry (m : Machine) (xfer : Option Nat) : Thread := { m := m, pc := Pc.clear xfer }

/-- Execute `n` statements of the call. -/
def steps (xfer : Option Nat) : Nat → Thread → Thread
  | 0, c => c
  | n + 1, c => steps xfer n (step xfer c)

/-- Execute statements until the interrupt mask is clear. -/
def until_unmasked (xfer : Option Nat) : Nat → Thread → Option Thread
  | fuel, c =>
    if c.m.primask = false then some c
    else match fuel with
      | 0 => none
      | fuel + 1 => until_unmasked xfer fuel (step xfer c)

/-- Execute statements until the call has returned. -/
def until_ret (xfer : Option Nat) : Nat → Thread → Option Thread
  | fuel, c =>
    if c.pc = Pc.ret then some c
    else match fuel with
      | 0 => none
      | fuel + 1 => until_ret xfer fuel (step xfer c)

/-- A call of `spi_transfer` during which the completion interrupt is raised
after `k` statements: the interrupt is taken at the first point from there on
where the mask is clear, `spi_dma_isr` runs with the completion flag set, and
the call goes on to its return (it has already returned when the interrupt is
taken after `__enable_irq()`). -/
def spi_transfer_irq (fuel k : Nat) (m : Machine) (xfer : Option Nat) : Outcome :=
  match until_unmasked xfer fuel (steps xfer k (entry m xfer)) with
  | none => Outcome.timeout
  | some c =>
    match spi_dma_isr true c.m with
    | Outcome.returned m1 =>
      match until_ret xfer fuel { m := m1, pc := c.pc } with
      | none => Outcome.timeout
      | some c2 => Outcome.returned c2.m
    | o => o

/-- The machine after the first loop of `spi_transfer` has cleared the `done` flag
of descriptor `d`. -/
def clear1 (m : Machine) (d : Nat) : Machine :=
  { m with mem := store m.mem d { m.mem d with done := 0 } }

/-- The points that a call of `spi_transfer(spi, xfer)` entered on machine `m0`
can reach when the completion handler may run, any number of times and with any
flag status, between any two statements at which the interrupt mask is clear. -/
inductive Run (xfer : Option Nat) (m0 : Machine) : Thread → Prop where
  | start : Run xfer m0 (entry m0 xfer)
  | step (c : Thread) : Run xfer m0 c → Run xfer m0 (step xfer c)
  | irq (c : Thread) (it_status : Bool) (m1 : Machine) : Run xfer m0 c →
      c.m.primask = false → spi_dma_isr it_status c.m = Outcome.returned m1 →
      Run xfer m0 { m := m1, pc := c.pc }

/-! ## Example machines -/

/-- An idle device over a memory of descriptors `mem`, every line inactive. -/
def idle (mem : Nat → spi_transfer_t) : Machine :=
  { spi := { xfer := none, is_init := 1 }
    mem := mem
    rx := { CR := 0, NDTR := 0, M0AR := 0 }
    tx := { CR := 0, NDTR := 0, M0AR := 0 }
    odr := fun _ _ => true
    primask := false
    writes := [] }

/-- Descriptor at address `a` of the example memory: buffers at distinct
addresses, select line `a % 4` of port 4, `a + 1` bytes. -/
def mem0 (a : Nat) : spi_transfer_t :=
  { read_buff := 0x20000000 + 16 * a, write_buff := 0x20001000 + 16 * a,
    nss := some { gpio := 4, pin := 2 ^ (a % 4) }, count := a + 1, done := 0, next := none }

/-- The example device with descriptor 1 active and descriptor 2 queued behind it,
as two submissions to the idle device leave it. -/
def busy12 : Machine :=
  { spi := { xfer := some 1, is_init := 1 }
    mem := store mem0 1 { mem0 1 with next := some 2 }
    rx := { CR := 1, NDTR := 2, M0AR := 0x20000010 }
    tx := { CR := 1, NDTR := 2, M0AR := 0x20001010 }
    odr := fun g i => if g = 4 ∧ i = 1 then false else true
    primask := false
    writes := run_writes (mem0 1) 0 0 }

/-- The example memory with descriptor 1 linked to itself. -/
def mem_loop : Nat → spi_transfer_t := store mem0 1 { mem0 1 with next := some 1 }

/-- The example memory with a stale link: descriptor 1 still points to 2. -/
def mem12 : Nat → spi_transfer_t := store mem0 1 { mem0 1 with next := some 2 }

/-! ## Lemmas on chains -/

theorem store_same (mem : Nat → spi_transfer_t) (a : Nat) (v : spi_transfer_t) :
    store mem a v a = v := by
  simp [store]

theorem store_other (mem : Nat → spi_transfer_t) (a x : Nat) (v : spi_transfer_t)
    (h : x ≠ a) : store mem a v x = mem x := by
  simp [store, h]

/-- A chain only depends on the `next` links of its own nodes. -/
theorem IsChain.congr {mem mem1 : Nat → spi_transfer_t} :
    ∀ {l : List Nat} {p : Option Nat}, IsChain mem p l →
      (∀ a ∈ l, (mem1 a).next = (mem a).next) → IsChain mem1 p l
  | [], _, h, _ => h
  | a :: l, _, h, hm => by
    refine ⟨h.1, ?_⟩
    rw [hm a (List.mem_cons_self a l)]
    exact IsChain.congr h.2 (fun b hb => hm b (List.mem_cons_of_mem a hb))

/-- The chain from a pointer is unique. -/
theorem IsChain.unique {mem : Nat → spi_transfer_t} :
    ∀ {l1 l2 : List Nat} {p : Option Nat}, IsChain mem p l1 → IsChain mem p l2 → l1 = l2
  | [], [], _, _, _ => rfl
  | [], b :: l2, p, h1, h2 => by
    have e1 : p = none := h1
    have e2 : p = some b := h2.1
    rw [e1] at e2; cases e2
  | a :: l1, [], p, h1, h2 => by
    have e1 : p = some a := h1.1
    have e2 : p = none := h2
    rw [e1] at e2; cases e2
  | a :: l1, b :: l2, p, h1, h2 => by
    have e1 : p = some a := h1.1
    have e2 : p = some b := h2.1
    rw [e1] at e2
    cases e2
    have := IsChain.unique h1.2 h2.2
    rw [this]

/-- Every node of a chain starts the rest of the chain. -/
theorem IsChain.suffix {mem : Nat → spi_transfer_t} :
    ∀ {l1 : List Nat} {l2 : List Nat} {a : Nat} {p : Option Nat},
      IsChain mem p (l1 ++ a :: l2) → IsChain mem (some a) (a :: l2)
  | [], _, _, _, h => ⟨rfl, h.2⟩
  | _ :: _, _, _, _, h => IsChain.suffix h.2

/-- A finite chain that ends with `NULL` has no node twice. -/
theorem IsChain.nodup {mem : Nat → spi_transfer_t} :
    ∀ {l : List Nat} {p : Option Nat}, IsChain mem p l → l.Nodup
  | [], _, _ => List.nodup_nil
  | a :: l, p, h => by
    refine List.nodup_cons.mpr ⟨?_, IsChain.nodup h.2⟩
    intro ha
    obtain ⟨l1, l2, e⟩ := List.append_of_mem ha
    have h2 : IsChain mem (mem a).next (l1 ++ a :: l2) := e ▸ h.2
    have h3 : IsChain mem (some a) (a :: l2) := IsChain.suffix h2
    have h4 : IsChain mem (some a) (a :: l) := ⟨rfl, h.2⟩
    have e2 := IsChain.unique h3 h4
    have e3 : l2 = l := by injection e2
    have : l.length = l1.length + (l2.length + 1) := by rw [e]; simp
    rw [e3] at this
    omega

theorem cleared_next (mem : Nat → spi_transfer_t) (l : List Nat) (x : Nat) :
    (cleared mem l x).next = (mem x).next := by
  unfold cleared; split <;> rfl

theorem cleared_nss (mem : Nat → spi_transfer_t) (l : List Nat) (x : Nat) :
    (cleared mem l x).nss = (mem x).nss := by
  unfold cleared; split <;> rfl

theorem cleared_done_mem (mem : Nat → spi_transfer_t) (l : List Nat) (x : Nat) (h : x ∈ l) :
    (cleared mem l x).done = 0 := by
  simp [cleared, h]

theorem cleared_not_mem (mem : Nat → spi_transfer_t) (l : List Nat) (x : Nat) (h : x ∉ l) :
    cleared mem l x = mem x := by
  simp [cleared, h]

/-- The first loop terminates on a finite chain, with fuel for each node, and
clears exactly the `done` flags of the chain. -/
theorem clear_done_spec :
    ∀ (l : List Nat) (fuel : Nat) (mem : Nat → spi_transfer_t) (p : Option Nat),
      IsChain mem p l → l.length ≤ fuel → clear_done fuel mem p = some (cleared mem l)
  | [], fuel, mem, p, h, _ => by
    have e : p = none := h
    subst e
    have : cleared mem [] = mem := by funext x; simp [cleared]
    rw [this]
    cases fuel <;> rfl
  | a :: l, 0, _, _, _, hf => by simp at hf
  | a :: l, fuel + 1, mem, p, h, hf => by
    have e : p = some a := h.1
    subst e
    have hc : IsChain (store mem a { mem a with done := 0 })
        (store mem a { mem a with done := 0 } a).next l := by
      rw [store_same]
      refine IsChain.congr h.2 (fun b _ => ?_)
      unfold store; split
      · next e => rw [e]
      · rfl
    have ih := clear_done_spec l fuel _ _ hc (by simpa using hf)
    show clear_done fuel _ _ = _
    rw [ih]
    congr 1
    funext x
    unfold cleared store
    by_cases hx : x = a
    · subst hx; simp
    · simp [hx]

/-- The second loop ends at the last node of a finite chain when the submitted
pointer is none of the nodes before the last. -/
theorem walk_spec (mem : Nat → spi_transfer_t) (xfer : Option Nat) (t : Nat) :
    ∀ (l1 : List Nat) (fuel o : Nat), IsChain mem (some o) (l1 ++ [t]) →
      (∀ a ∈ l1, some a ≠ xfer) → l1.length ≤ fuel → walk fuel mem o xfer = Walk.last t
  | [], fuel, o, h, _, _ => by
    have e : some o = some t := h.1
    have hn : (mem t).next = none := h.2
    injection e with e
    subst e
    unfold walk
    rw [hn]
  | a :: l1, 0, _, _, _, hf => by simp at hf
  | a :: l1, fuel + 1, o, h, hx, hf => by
    have e : some o = some a := h.1
    injection e with e
    subst e
    have h2 : IsChain mem (mem o).next (l1 ++ [t]) := h.2
    obtain ⟨n, hn⟩ : ∃ n, (mem o).next = some n := by
      cases l1 with
      | nil => exact ⟨t, h2.1⟩
      | cons b l => exact ⟨b, h2.1⟩
    have ih := walk_spec mem xfer t l1 fuel n (hn ▸ h2)
      (fun b hb => hx b (List.mem_cons_of_mem _ hb)) (by simpa using hf)
    unfold walk
    rw [hn]
    simp only [hx o (List.mem_cons_self _ _), if_false]
    exact ih

/-- Linking a second chain after the last node of a chain gives the
concatenation. -/
theorem IsChain.append {mem : Nat → spi_transfer_t} (t : Nat) (q : Option Nat)
    (l2 : List Nat) (h2 : IsChain mem q l2) (ht2 : t ∉ l2) :
    ∀ (l1 : List Nat) (p : Option Nat), IsChain mem p (l1 ++ [t]) →
      IsChain (store mem t { mem t with next := q }) p (l1 ++ [t] ++ l2)
  | [], p, h => by
    refine ⟨h.1, ?_⟩
    rw [store_same]
    exact IsChain.congr h2 (fun b hb => by
      rw [store_other]
      rintro rfl
      exact ht2 hb)
  | a :: l1, p, h => by
    have hnd : (a :: (l1 ++ [t])).Nodup := IsChain.nodup (show IsChain mem p (a :: (l1 ++ [t])) from h)
    have hat : a ≠ t := by
      rintro rfl
      exact (List.nodup_cons.mp hnd).1 (by simp)
    refine ⟨h.1, ?_⟩
    rw [store_other _ _ _ _ hat]
    exact IsChain.append t q l2 h2 ht2 l1 _ h.2

/-- Two nodes that point to each other are on no finite chain. -/
theorem no_queue_of_two_cycle (m : Machine) (a b : Nat) (hx : m.spi.xfer = some a)
    (h1 : (m.mem a).next = some b) (h2 : (m.mem b).next = some a) :
    ∀ l, ¬ Queue m l := by
  intro l hl
  have hnd := IsChain.nodup hl
  unfold Queue at hl
  rw [hx] at hl
  match l, hl, hnd with
  | [], hl, _ => exact absurd hl (by simp [IsChain])
  | [x], hl, _ =>
    obtain ⟨e, hn⟩ := hl
    injection e with e
    subst e
    rw [h1] at hn
    exact absurd hn (by simp [IsChain])
  | [x, y], hl, _ =>
    obtain ⟨e, e2, hn⟩ := hl
    injection e with e
    subst e
    rw [h1] at e2
    injection e2 with e2
    subst e2
    rw [h2] at hn
    exact absurd hn (by simp [IsChain])
  | x :: y :: z :: l, hl, hnd =>
    obtain ⟨e, e2, e3, _⟩ := hl
    injection e with e
    subst e
    rw [h1] at e2
    injection e2 with e2
    subst e2
    rw [h2] at e3
    injection e3 with e3
    subst e3
    simp at hnd

/-! ## Lemmas on the hardware -/

theorem en_set (c : Nat) : (c ||| DMA_SxCR_EN) &&& DMA_SxCR_EN = DMA_SxCR_EN := by
  unfold DMA_SxCR_EN
  rw [Nat.and_one_is_mod, Nat.or_mod_two_eq_one]
  right; rfl

theorem en_clear (c : Nat) :
    (c &&& (0xFFFFFFFF ^^^ DMA_SxCR_EN)) &&& DMA_SxCR_EN ≠ DMA_SxCR_EN := by
  have h : (0xFFFFFFFF ^^^ DMA_SxCR_EN) &&& DMA_SxCR_EN = 0 := by decide
  rw [Nat.and_assoc, h, Nat.and_zero]
  decide

/-- What `spi_run_xfer` leaves: the descriptor is the active one, its select line
is at the active level and no other line moved, both engines hold its buffers
and count and are enabled, the memory and the interrupt mask are untouched. -/
theorem spi_run_xfer_spec (m : Machine) (d : Nat) :
    (spi_run_xfer m d).spi.xfer = some d ∧
    (spi_run_xfer m d).spi.is_init = m.spi.is_init ∧
    (spi_run_xfer m d).mem = m.mem ∧
    (spi_run_xfer m d).primask = m.primask ∧
    (spi_run_xfer m d).writes = m.writes ++ run_writes (m.mem d) m.rx.CR m.tx.CR ∧
    (∀ g i, (spi_run_xfer m d).odr g i = if selects (m.mem d) g i then false else m.odr g i) ∧
    (spi_run_xfer m d).rx.M0AR = (m.mem d).read_buff ∧
    (spi_run_xfer m d).tx.M0AR = (m.mem d).write_buff ∧
    (spi_run_xfer m d).rx.NDTR = (m.mem d).count ∧
    (spi_run_xfer m d).tx.NDTR = (m.mem d).count ∧
    enabled (spi_run_xfer m d) Stream.dma_rx_stream ∧
    enabled (spi_run_xfer m d) Stream.dma_tx_stream := by
  refine ⟨?_, ?_, ?_, ?_, ?_, ?_, ?_, ?_, ?_, ?_, ?_, ?_⟩
  all_goals
    cases hn : (m.mem d).nss <;>
    simp [spi_run_xfer, hn, write_M0AR, write_NDTR, write_CR, write_BSRRH,
      Machine.setStream, Machine.stream, run_writes, enabled, en_set, selects]

theorem store_done_fields (mem : Nat → spi_transfer_t) (a b v : Nat) :
    (store mem a { mem a with done := v } b).nss = (mem b).nss ∧
    (store mem a { mem a with done := v } b).read_buff = (mem b).read_buff ∧
    (store mem a { mem a with done := v } b).write_buff = (mem b).write_buff ∧
    (store mem a { mem a with done := v } b).count = (mem b).count ∧
    (store mem a { mem a with done := v } b).next = (mem b).next := by
  unfold store
  by_cases h : b = a
  · subst h; simp
  · simp [h]

/-- What the finishing half of the handler leaves. -/
theorem isr_finish_spec (m : Machine) (a : Nat) :
    (isr_finish m a).mem = store m.mem a { m.mem a with done := 1 } ∧
    (isr_finish m a).spi = m.spi ∧
    (isr_finish m a).primask = m.primask ∧
    (isr_finish m a).writes = m.writes ++ isr_writes (m.mem a) m.rx.CR m.tx.CR ∧
    (∀ g i, (isr_finish m a).odr g i = if selects (m.mem a) g i then true else m.odr g i) ∧
    (isr_finish m a).rx.CR = m.rx.CR &&& (0xFFFFFFFF ^^^ DMA_SxCR_EN) ∧
    (isr_finish m a).tx.CR = m.tx.CR &&& (0xFFFFFFFF ^^^ DMA_SxCR_EN) := by
  refine ⟨?_, ?_, ?_, ?_, ?_, ?_, ?_⟩
  all_goals
    cases hn : (m.mem a).nss <;>
    simp [isr_finish, DMA_Cmd_DISABLE, DMA_ClearFlag, DMA_ClearITPendingBit, write_CR,
      write_BSRRL, Machine.setStream, Machine.stream, isr_writes, selects, hn]

/-- What an invocation of `spi_dma_isr` with the completion flag set leaves when
`a` is the active descriptor. -/
theorem spi_dma_isr_spec (m : Machine) (a : Nat) (h : m.spi.xfer = some a) :
    ∃ m1, spi_dma_isr true m = Outcome.returned m1 ∧
      m1.mem = store m.mem a { m.mem a with done := 1 } ∧
      m1.spi.xfer = (m.mem a).next ∧
      m1.spi.is_init = m.spi.is_init ∧
      m1.primask = m.primask ∧
      m1.writes = m.writes ++ isr_writes (m.mem a) m.rx.CR m.tx.CR ++
        (match (m.mem a).next with
          | some b => run_writes (m.mem b) (m.rx.CR &&& (0xFFFFFFFF ^^^ DMA_SxCR_EN))
              (m.tx.CR &&& (0xFFFFFFFF ^^^ DMA_SxCR_EN))
          | none => []) ∧
      (∀ g i, m1.odr g i =
        match (m.mem a).next with
        | some b => if selects (m.mem b) g i then false
            else if selects (m.mem a) g i then true else m.odr g i
        | none => if selects (m.mem a) g i then true else m.odr g i) ∧
      (match (m.mem a).next with
        | some b =>
          m1.rx.M0AR = (m.mem b).read_buff ∧ m1.tx.M0AR = (m.mem b).write_buff ∧
          m1.rx.NDTR = (m.mem b).count ∧ m1.tx.NDTR = (m.mem b).count ∧
          enabled m1 Stream.dma_rx_stream ∧ enabled m1 Stream.dma_tx_stream
        | none =>
          ¬ enabled m1 Stream.dma_rx_stream ∧ ¬ enabled m1 Stream.dma_tx_stream) := by
  obtain ⟨e1, e2, e3, e4, e5, e6, e7⟩ := isr_finish_spec m a
  have hnext : ((isr_finish m a).mem a).next = (m.mem a).next := by
    rw [e1, store_same]
  cases hnx : (m.mem a).next with
  | none =>
    refine ⟨{ isr_finish m a with spi := { (isr_finish m a).spi with xfer := none } }, ?_, ?_⟩
    · simp only [spi_dma_isr, h, if_true, hnext, hnx]
    · refine ⟨e1, rfl, ?_, e3, ?_, ?_, ?_, ?_⟩
      · show (isr_finish m a).spi.is_init = _
        rw [e2]
      · show (isr_finish m a).writes = _
        rw [e4]; simp
      · intro g i
        show (isr_finish m a).odr g i = _
        rw [e5]
      · show ¬ ((isr_finish m a).rx.CR &&& DMA_SxCR_EN = DMA_SxCR_EN)
        rw [e6]; exact en_clear _
      · show ¬ ((isr_finish m a).tx.CR &&& DMA_SxCR_EN = DMA_SxCR_EN)
        rw [e7]; exact en_clear _
  | some b =>
    refine ⟨spi_run_xfer (isr_finish m a) b, ?_, ?_⟩
    · simp only [spi_dma_isr, h, if_true, hnext, hnx]
    · obtain ⟨r1, r2, r3, r4, r5, r6, r7, r8, r9, r10, r11, r12⟩ :=
        spi_run_xfer_spec (isr_finish m a) b
      obtain ⟨f1, f2, f3, f4, _⟩ := store_done_fields m.mem a b 1
      rw [e1] at r5 r6 r7 r8 r9 r10
      have hsel : ∀ g i, selects (store m.mem a { m.mem a with done := 1 } b) g i ↔
          selects (m.mem b) g i := by
        intro g i; unfold selects; rw [f1]
      have hrw : ∀ x y, run_writes (store m.mem a { m.mem a with done := 1 } b) x y =
          run_writes (m.mem b) x y := by
        intro x y; unfold run_writes; rw [f1, f2, f3, f4]
      refine ⟨r3.trans e1, r1, r2.trans (by rw [e2]), r4.trans e3, ?_, ?_,
        r7.trans f2, r8.trans f3, r9.trans f4, r10.trans f4, r11, r12⟩
      · rw [r5, hrw, e4, e6, e7]
      · intro g i
        rw [r6, e5]
        simp only [hsel]

/-! ## Lemmas on `spi_transfer` -/

/-- Submission to an idle device, for a descriptor whose own chain `l` is finite. -/
theorem spi_transfer_idle (m : Machine) (d : Nat) (l : List Nat) (fuel : Nat)
    (hidle : m.spi.xfer = none) (hc : IsChain m.mem (some d) l) (hf : l.length ≤ fuel) :
    spi_transfer fuel m (some d) = Outcome.returned
      { spi_run_xfer { m with mem := cleared m.mem l, primask := true } d with
        primask := false } := by
  unfold spi_transfer
  rw [clear_done_spec l fuel m.mem (some d) hc hf]
  simp [hidle]

/-- The head of a queue that is not empty is the active reference. -/
theorem Queue.head_eq {m : Machine} {l1 : List Nat} {t : Nat} (hq : Queue m (l1 ++ [t])) :
    m.spi.xfer = some ((l1 ++ [t]).head (by simp)) := by
  cases l1 with
  | nil => exact hq.1
  | cons a l => exact hq.1

/-- Submission to a busy device whose queue is `l1 ++ [t]`, for a descriptor that
is not in the queue and whose own chain `l` is finite. -/
theorem spi_transfer_busy (m : Machine) (d : Nat) (l l1 : List Nat) (t fuel : Nat)
    (hq : Queue m (l1 ++ [t])) (hc : IsChain m.mem (some d) l)
    (hd : ∀ a ∈ l1 ++ [t], a ≠ d) (hf : l.length ≤ fuel) (hf1 : l1.length ≤ fuel) :
    spi_transfer fuel m (some d) = Outcome.returned
      { m with
        mem := store (cleared m.mem l) t { cleared m.mem l t with next := some d }
        primask := false } := by
  have hx := Queue.head_eq hq
  have hne : (some ((l1 ++ [t]).head (by simp)) : Option Nat) ≠ some d := by
    intro e
    injection e with e
    exact hd _ (List.head_mem _) e
  have hq1 : IsChain (cleared m.mem l) (some ((l1 ++ [t]).head (by simp))) (l1 ++ [t]) := by
    rw [← hx]
    exact IsChain.congr hq (fun a _ => cleared_next _ _ _)
  have hw := walk_spec (cleared m.mem l) (some d) t l1 fuel _ hq1
    (fun a ha e => by
      injection e with e
      exact hd a (List.mem_append_left _ ha) e) hf1
  unfold spi_transfer
  rw [clear_done_spec l fuel m.mem (some d) hc hf]
  simp only [hx, hne, if_false, hw]

theorem selects_congr {x y : spi_transfer_t} (h : x.nss = y.nss) (g i : Nat) :
    selects x g i ↔ selects y g i := by
  unfold selects; rw [h]

/-- A list is empty or ends with a last element. -/
theorem nil_or_snoc (l : List Nat) : l = [] ∨ ∃ l1 t, l = l1 ++ [t] := by
  rcases List.eq_nil_or_concat l with h | ⟨l1, t, h⟩
  · exact Or.inl h
  · exact Or.inr ⟨l1, t, by rw [h, List.concat_eq_append]⟩

/-- When the second loop ends at a node, that node is the last of the chain. -/
theorem walk_last_eq (mem : Nat → spi_transfer_t) (xfer : Option Nat) (t r : Nat) :
    ∀ (l1 : List Nat) (fuel o : Nat), IsChain mem (some o) (l1 ++ [t]) →
      walk fuel mem o xfer = Walk.last r → r = t
  | [], fuel, o, h, hw => by
    have e : some o = some t := h.1
    have hn : (mem t).next = none := h.2
    injection e with e
    subst e
    unfold walk at hw
    rw [hn] at hw
    injection hw with hw
    exact hw.symm
  | a :: l1, fuel, o, h, hw => by
    have e : some o = some a := h.1
    injection e with e
    subst e
    have h2 : IsChain mem (mem o).next (l1 ++ [t]) := h.2
    obtain ⟨n, hn⟩ : ∃ n, (mem o).next = some n := by
      cases l1 with
      | nil => exact ⟨t, h2.1⟩
      | cons b l => exact ⟨b, h2.1⟩
    unfold walk at hw
    rw [hn] at hw
    by_cases hx : some o = xfer
    · simp [hx] at hw
    · simp only [hx, if_false] at hw
      cases fuel with
      | zero => simp at hw
      | succ f => exact walk_last_eq mem xfer t r l1 f n (hn ▸ h2) hw

/-- A call of `spi_transfer` on a descriptor with `next = NULL` returns only with
fuel, and the first loop has then cleared exactly its `done` flag. -/
theorem clear_done_fresh (mem : Nat → spi_transfer_t) (d fuel : Nat)
    (hn : (mem d).next = none) :
    clear_done fuel mem (some d) = if fuel = 0 then none else some (cleared mem [d]) := by
  cases fuel with
  | zero => rfl
  | succ f =>
    rw [clear_done_spec [d] (f + 1) mem (some d) ⟨rfl, hn⟩ (by simp)]
    simp

/-- What a call of `spi_transfer` on a fresh descriptor that returns has done. -/
theorem fresh_transfer_step (m m1 : Machine) (d : Nat) (l : List Nat) (fuel : Nat)
    (hq : Queue m l) (hd : d ∉ l) (hn : (m.mem d).next = none)
    (hr : spi_transfer fuel m (some d) = Outcome.returned m1) :
    Queue m1 (l ++ [d]) ∧
    (m.spi.xfer = none → m1.spi.xfer = some d) ∧
    (m.spi.xfer ≠ none → m1.spi.xfer = m.spi.xfer) ∧
    (m1.mem d).done = 0 ∧
    (∀ x, x ≠ d → (m1.mem x).done = (m.mem x).done) ∧
    (∀ x, (m1.mem x).nss = (m.mem x).nss) ∧
    (∀ g i, m1.odr g i =
      if m.spi.xfer = none ∧ selects (m.mem d) g i then false else m.odr g i) ∧
    (∀ x, x ∉ l → (m1.mem x).next = (m.mem x).next) := by
  have hdc : IsChain m.mem (some d) [d] := ⟨rfl, hn⟩
  have hfuel : fuel ≠ 0 := by
    rintro rfl
    simp [spi_transfer, clear_done] at hr
  rcases nil_or_snoc l with rfl | ⟨l1, t, rfl⟩
  · have hidle : m.spi.xfer = none := hq
    rw [spi_transfer_idle m d [d] fuel hidle hdc (by simp; omega)] at hr
    injection hr with hr
    obtain ⟨r1, _, r3, _, _, r6, _⟩ :=
      spi_run_xfer_spec { m with mem := cleared m.mem [d], primask := true } d
    generalize spi_run_xfer { m with mem := cleared m.mem [d], primask := true } d = R
      at hr r1 r3 r6
    subst hr
    have hmem : R.mem = cleared m.mem [d] := r3
    have hodr : ∀ g i, R.odr g i = if selects (cleared m.mem [d] d) g i then false
        else m.odr g i := r6
    refine ⟨?_, fun _ => r1, fun h => absurd hidle h, ?_, ?_, ?_, ?_, ?_⟩
    rotate_right
    · intro x _
      show (R.mem x).next = _
      rw [hmem, cleared_next]
    · show IsChain R.mem R.spi.xfer ([] ++ [d])
      rw [r1, hmem]
      exact IsChain.congr hdc (fun x _ => cleared_next _ _ _)
    · show (R.mem d).done = 0
      rw [hmem]; exact cleared_done_mem _ _ _ (by simp)
    · intro x hx
      show (R.mem x).done = _
      rw [hmem, cleared_not_mem _ _ _ (by simpa using hx)]
    · intro x
      show (R.mem x).nss = _
      rw [hmem, cleared_nss]
    · intro g i
      show R.odr g i = _
      rw [hodr]
      have := selects_congr (cleared_nss m.mem [d] d) g i
      by_cases hs : selects (m.mem d) g i
      · rw [if_pos (this.mpr hs), if_pos ⟨hidle, hs⟩]
      · rw [if_neg (fun h => hs (this.mp h)), if_neg (fun h => hs h.2)]
  · have hx := Queue.head_eq hq
    have hne : m.spi.xfer ≠ none := by rw [hx]; simp
    have hne2 : ¬ (some ((l1 ++ [t]).head (by simp)) = some d) := by
      intro e
      injection e with e
      exact hd (e ▸ List.head_mem _)
    have hq1 : IsChain (cleared m.mem [d]) (some ((l1 ++ [t]).head (by simp))) (l1 ++ [t]) := by
      rw [← hx]
      exact IsChain.congr hq (fun a _ => cleared_next _ _ _)
    have htd : t ≠ d := by
      rintro rfl
      exact hd (by simp)
    unfold spi_transfer at hr
    rw [clear_done_fresh _ _ _ hn, if_neg hfuel] at hr
    simp only [hx, hne2, if_false] at hr
    cases hw : walk fuel (cleared m.mem [d]) ((l1 ++ [t]).head (by simp)) (some d) with
    | timeout => rw [hw] at hr; simp at hr
    | spin => rw [hw] at hr; simp at hr
    | last r =>
      rw [hw] at hr
      have hrt := walk_last_eq _ _ t r l1 fuel _ hq1 hw
      subst hrt
      simp only at hr
      injection hr with hr
      subst hr
      refine ⟨?_, fun h => absurd h hne, fun _ => rfl, ?_, ?_, ?_, ?_, ?_⟩
      rotate_right
      · intro x hx
        have hxr : x ≠ r := by
          rintro rfl
          exact hx (by simp)
        show (store _ _ _ x).next = _
        rw [store_other _ _ _ _ hxr, cleared_next]
      · have h2 : IsChain (cleared m.mem [d]) (some d) [d] :=
          IsChain.congr hdc (fun x _ => cleared_next _ _ _)
        have h1 : IsChain (cleared m.mem [d]) m.spi.xfer (l1 ++ [r]) :=
          IsChain.congr hq (fun a _ => cleared_next _ _ _)
        exact IsChain.append r (some d) [d] h2 (by simpa using htd) l1 _ h1
      · show (store _ _ _ d).done = 0
        rw [store_other _ _ _ _ (Ne.symm htd)]
        exact cleared_done_mem _ _ _ (by simp)
      · intro x hxd
        show (store _ _ _ x).done = _
        by_cases hxr : x = r
        · subst hxr
          rw [store_same]
          show (cleared m.mem [d] x).done = _
          rw [cleared_not_mem _ _ _ (by simpa using hxd)]
        · rw [store_other _ _ _ _ hxr, cleared_not_mem _ _ _ (by simpa using hxd)]
      · intro x
        show (store _ _ _ x).nss = _
        by_cases hxr : x = r
        · subst hxr
          rw [store_same]
          exact cleared_nss _ _ _
        · rw [store_other _ _ _ _ hxr, cleared_nss]
      · intro g i
        show m.odr g i = _
        rw [if_neg (fun h => hne h.1)]

/-- A call of `spi_transfer` on a fresh descriptor returns when the fuel covers the
queue. -/
theorem fresh_transfer_returns (m : Machine) (d : Nat) (l : List Nat) (fuel : Nat)
    (hq : Queue m l) (hd : d ∉ l) (hn : (m.mem d).next = none) (hf : l.length + 1 ≤ fuel) :
    ∃ m1, spi_transfer fuel m (some d) = Outcome.returned m1 := by
  have hdc : IsChain m.mem (some d) [d] := ⟨rfl, hn⟩
  rcases nil_or_snoc l with rfl | ⟨l1, t, rfl⟩
  · exact ⟨_, spi_transfer_idle m d [d] fuel hq hdc (by simp; omega)⟩
  · refine ⟨_, spi_transfer_busy m d [d] l1 t fuel hq hdc ?_ (by simp; omega) ?_⟩
    · rintro a ha rfl
      exact hd ha
    · simp at hf; omega

/-- An invocation of the handler that returns either had the flag clear and did
nothing, or had the flag set with an active descriptor. -/
theorem isr_returned (m m1 : Machine) (it_status : Bool)
    (hr : spi_dma_isr it_status m = Outcome.returned m1) :
    (it_status = false ∧ m1 = m) ∨ (it_status = true ∧ ∃ a, m.spi.xfer = some a) := by
  cases it_status with
  | false =>
    left
    simp only [spi_dma_isr] at hr
    injection hr with hr
    exact ⟨rfl, hr.symm⟩
  | true =>
    right
    refine ⟨rfl, ?_⟩
    cases hx : m.spi.xfer with
    | none => simp [spi_dma_isr, hx] at hr
    | some a => exact ⟨a, rfl⟩

/-- What an invocation of the handler with the flag set does to a queue
`a :: l`: `a` is done and leaves the queue, no other descriptor changes. -/
theorem isr_step (m m1 : Machine) (a : Nat) (l : List Nat) (hq : Queue m (a :: l))
    (hr : spi_dma_isr true m = Outcome.returned m1) :
    Queue m1 l ∧ (m1.mem a).done = 1 ∧ (∀ x, x ≠ a → m1.mem x = m.mem x) ∧
    (∀ x, (m1.mem x).nss = (m.mem x).nss) ∧ a ∉ l := by
  have hx : m.spi.xfer = some a := hq.1
  obtain ⟨m2, hr2, hmem, hxf, _⟩ := spi_dma_isr_spec m a hx
  rw [hr2] at hr
  injection hr with hr
  subst hr
  have hnd : a ∉ l := (List.nodup_cons.mp (IsChain.nodup hq)).1
  refine ⟨?_, ?_, ?_, ?_, hnd⟩
  · show IsChain m2.mem m2.spi.xfer l
    rw [hxf, hmem]
    refine IsChain.congr hq.2 (fun b hb => ?_)
    rw [store_other]
    rintro rfl
    exact hnd hb
  · rw [hmem, store_same]
  · intro x hxa
    rw [hmem, store_other _ _ _ _ hxa]
  · intro x
    rw [hmem]
    exact (store_done_fields m.mem a x 1).1

/-- The active reference is the head of the queue. -/
theorem Queue.xfer_eq {m : Machine} {l : List Nat} (hq : Queue m l) :
    m.spi.xfer = l.head? := by
  cases l with
  | nil => exact hq
  | cons a l => exact hq.1

/-- Submitting pairwise distinct fresh descriptors to a device whose queue is `l`
returns, with fuel for the final queue, and appends them in order. -/
theorem submit_all_spec (fuel : Nat) :
    ∀ (ds : List Nat) (m : Machine) (l : List Nat), Queue m l →
      (∀ d ∈ l, (m.mem d).done = 0) → (l ++ ds).Nodup →
      (∀ d ∈ ds, (m.mem d).next = none) → l.length + ds.length ≤ fuel →
      ∃ m1, submit_all fuel m ds = Outcome.returned m1 ∧ Queue m1 (l ++ ds) ∧
        ∀ d ∈ l ++ ds, (m1.mem d).done = 0
  | [], m, l, hq, hdone, _, _, _ => ⟨m, rfl, by simpa using hq, by simpa using hdone⟩
  | d :: ds, m, l, hq, hdone, hnd, hn, hf => by
    have hnd1 : (l ++ [d] ++ ds).Nodup := by simpa using hnd
    have hdl : d ∉ l := by
      intro h
      have := List.nodup_append.mp hnd
      exact this.2.2 h (List.mem_cons_self _ _)
    have hnd2 : d ∉ ds := (List.nodup_cons.mp (List.nodup_append.mp hnd).2.1).1
    have hdn : (m.mem d).next = none := hn d (List.mem_cons_self _ _)
    obtain ⟨m1, hr⟩ := fresh_transfer_returns m d l fuel hq hdl hdn
      (by simp at hf; omega)
    obtain ⟨s1, _, _, s4, s5, _, _, s8⟩ := fresh_transfer_step m m1 d l fuel hq hdl hdn hr
    have hdone1 : ∀ x ∈ l ++ [d], (m1.mem x).done = 0 := by
      intro x hx
      by_cases hxd : x = d
      · rw [hxd]; exact s4
      · rw [s5 x hxd]
        rcases List.mem_append.mp hx with h | h
        · exact hdone x h
        · exact absurd (List.mem_singleton.mp h) hxd
    have hn1 : ∀ x ∈ ds, (m1.mem x).next = none := by
      intro x hx
      have hxl : x ∉ l := by
        intro h
        exact (List.nodup_append.mp hnd).2.2 h (List.mem_cons_of_mem _ hx)
      rw [s8 x hxl]
      exact hn x (List.mem_cons_of_mem _ hx)
    obtain ⟨m2, hr2, hq2, hd2⟩ := submit_all_spec fuel ds m1 (l ++ [d]) s1 hdone1 hnd1 hn1
      (by simp at hf ⊢; omega)
    refine ⟨m2, ?_, by simpa using hq2, by simpa using hd2⟩
    show (match spi_transfer fuel m (some d) with
      | Outcome.returned m1 => submit_all fuel m1 ds
      | o => o) = _
    rw [hr]
    exact hr2

/-- After `k` invocations of the handler on a queue `l` of pending descriptors,
the first `k` are done, the others are not and form the queue, in order, and no
descriptor outside `l` has changed. -/
theorem complete_spec :
    ∀ (k : Nat) (m : Machine) (l : List Nat), Queue m l →
      (∀ d ∈ l, (m.mem d).done = 0) → k ≤ l.length →
      ∃ mk, complete k m = Outcome.returned mk ∧ Queue mk (l.drop k) ∧
        (∀ d ∈ l.take k, (mk.mem d).done = 1) ∧ (∀ d ∈ l.drop k, (mk.mem d).done = 0) ∧
        (∀ x, x ∉ l → mk.mem x = m.mem x)
  | 0, m, l, hq, hdone, _ =>
    ⟨m, rfl, by simpa using hq, by simp, by simpa using hdone, fun _ _ => rfl⟩
  | k + 1, m, [], _, _, hk => by simp at hk
  | k + 1, m, a :: l, hq, hdone, hk => by
    obtain ⟨m1, hr, _⟩ := spi_dma_isr_spec m a hq.1
    obtain ⟨s1, s2, s3, _, s5⟩ := isr_step m m1 a l hq hr
    have hdone1 : ∀ d ∈ l, (m1.mem d).done = 0 := by
      intro d hd
      have hda : d ≠ a := by
        rintro rfl
        exact s5 hd
      rw [s3 d hda]
      exact hdone d (List.mem_cons_of_mem _ hd)
    obtain ⟨mk, hc, hqk, h1, h0, hfr⟩ := complete_spec k m1 l s1 hdone1 (by simpa using hk)
    refine ⟨mk, ?_, by simpa using hqk, ?_, by simpa using h0, ?_⟩
    · show (match spi_dma_isr true m with
        | Outcome.returned m1 => complete k m1
        | o => o) = _
      rw [hr]
      exact hc
    · intro d hd
      rw [List.take_succ_cons, List.mem_cons] at hd
      rcases hd with rfl | hd
      · rw [hfr d s5]; exact s2
      · exact h1 d hd
    · intro x hx
      rw [List.mem_cons, not_or] at hx
      rw [hfr x hx.2, s3 x hx.1]

/-- Reachable states have a finite queue of descriptors that are not done. -/
theorem reachable_queue (m0 m : Machine) (h0 : m0.spi.xfer = none) (hr : Reachable m0 m) :
    ∃ l, Queue m l ∧ ∀ d ∈ l, (m.mem d).done = 0 := by
  induction hr with
  | start => exact ⟨[], h0, by simp⟩
  | transfer m m1 fuel d _ hfresh hret ih =>
    obtain ⟨l, hq, hdone⟩ := ih
    obtain ⟨hn, l2, hq2, hd⟩ := hfresh
    have e := IsChain.unique hq2 hq
    subst e
    obtain ⟨s1, _, _, s4, s5, _⟩ := fresh_transfer_step m m1 d l2 fuel hq hd hn hret
    refine ⟨l2 ++ [d], s1, ?_⟩
    intro x hx
    by_cases hxd : x = d
    · rw [hxd]; exact s4
    · rw [s5 x hxd]
      rcases List.mem_append.mp hx with h | h
      · exact hdone x h
      · exact absurd (List.mem_singleton.mp h) hxd
  | isr m m1 it _ hret ih =>
    obtain ⟨l, hq, hdone⟩ := ih
    rcases isr_returned m m1 it hret with ⟨_, rfl⟩ | ⟨rfl, a, hx⟩
    · exact ⟨l, hq, hdone⟩
    · cases l with
      | nil =>
        have : m.spi.xfer = none := hq
        rw [this] at hx
        cases hx
      | cons b l =>
        have e : m.spi.xfer = some b := hq.1
        rw [e] at hx
        injection hx with hx
        subst hx
        obtain ⟨s1, _, s3, _, s5⟩ := isr_step m m1 b l hq hret
        refine ⟨l, s1, ?_⟩
        intro d hd
        have hda : d ≠ b := by
          rintro rfl
          exact s5 hd
        rw [s3 d hda]
        exact hdone d (List.mem_cons_of_mem _ hd)

/-- Whenever the first loop ends, it has changed no field but `done` and has left
every cleared `done` flag cleared. -/
theorem clear_done_some :
    ∀ (fuel : Nat) (mem mem1 : Nat → spi_transfer_t) (p : Option Nat),
      clear_done fuel mem p = some mem1 →
      (∀ x, (mem1 x).nss = (mem x).nss ∧ (mem1 x).read_buff = (mem x).read_buff ∧
        (mem1 x).write_buff = (mem x).write_buff ∧ (mem1 x).count = (mem x).count ∧
        (mem1 x).next = (mem x).next) ∧
      (∀ x, (mem x).done = 0 → (mem1 x).done = 0)
  | 0, mem, mem1, none, h => by
    simp only [clear_done, Option.some.injEq] at h
    subst h
    exact ⟨fun _ => ⟨rfl, rfl, rfl, rfl, rfl⟩, fun _ hx => hx⟩
  | _ + 1, mem, mem1, none, h => by
    simp only [clear_done, Option.some.injEq] at h
    subst h
    exact ⟨fun _ => ⟨rfl, rfl, rfl, rfl, rfl⟩, fun _ hx => hx⟩
  | 0, mem, mem1, some a, h => by simp [clear_done] at h
  | fuel + 1, mem, mem1, some a, h => by
    have h1 : clear_done fuel (store mem a { mem a with done := 0 })
        (store mem a { mem a with done := 0 } a).next = some mem1 := h
    obtain ⟨i1, i2⟩ := clear_done_some fuel _ mem1 _ h1
    constructor
    · intro x
      obtain ⟨j1, j2, j3, j4, j5⟩ := i1 x
      obtain ⟨k1, k2, k3, k4, k5⟩ := store_done_fields mem a x 0
      exact ⟨j1.trans k1, j2.trans k2, j3.trans k3, j4.trans k4, j5.trans k5⟩
    · intro x hx
      apply i2
      unfold store
      split
      · rfl
      · exact hx

/-- When the first loop ends, the `done` flag of the submitted descriptor is 0. -/
theorem clear_done_head (fuel : Nat) (mem mem1 : Nat → spi_transfer_t) (d : Nat)
    (h : clear_done fuel mem (some d) = some mem1) : (mem1 d).done = 0 := by
  cases fuel with
  | zero => simp [clear_done] at h
  | succ f =>
    have h1 : clear_done f (store mem d { mem d with done := 0 })
        (store mem d { mem d with done := 0 } d).next = some mem1 := h
    exact (clear_done_some f _ mem1 _ h1).2 d (by rw [store_same])

/-! ## Lemmas on the statements of `spi_transfer` and on interrupts -/

theorem steps_add (xfer : Option Nat) :
    ∀ (a b : Nat) (c : Thread), steps xfer (a + b) c = steps xfer b (steps xfer a c)
  | 0, b, c => by simp [steps]
  | a + 1, b, c => by
    rw [Nat.add_right_comm]
    exact steps_add xfer a b (step xfer c)

theorem steps_succ (xfer : Option Nat) (n : Nat) (c : Thread) :
    steps xfer (n + 1) c = step xfer (steps xfer n c) :=
  steps_add xfer n 1 c

theorem steps_ret (xfer : Option Nat) (m : Machine) :
    ∀ n, steps xfer n { m := m, pc := Pc.ret } = { m := m, pc := Pc.ret }
  | 0 => rfl
  | n + 1 => steps_ret xfer m n

/-- The call returns within the fuel when it returns after `n` statements. -/
theorem until_ret_of_steps (xfer : Option Nat) (m1 : Machine) :
    ∀ (n fuel : Nat) (c : Thread), steps xfer n c = { m := m1, pc := Pc.ret } → n ≤ fuel →
      until_ret xfer fuel c = some { m := m1, pc := Pc.ret }
  | 0, fuel, c, h, _ => by
    have e : c = { m := m1, pc := Pc.ret } := h
    subst e
    unfold until_ret
    simp
  | n + 1, 0, _, _, hf => by simp at hf
  | n + 1, fuel + 1, c, h, hf => by
    unfold until_ret
    by_cases hc : c.pc = Pc.ret
    · have e : c = { m := c.m, pc := Pc.ret } := by rw [← hc]
      rw [e, steps_ret] at h
      rw [if_pos hc, e, h]
    · rw [if_neg hc]
      exact until_ret_of_steps xfer m1 n fuel (step xfer c) h (by omega)

/-- The mask is clear within the fuel, at the first point where it is. -/
theorem until_unmasked_of_steps (xfer : Option Nat) (c1 : Thread) :
    ∀ (n fuel : Nat) (c : Thread), steps xfer n c = c1 → c1.m.primask = false →
      (∀ j, j < n → (steps xfer j c).m.primask = true) → n ≤ fuel →
      until_unmasked xfer fuel c = some c1
  | 0, fuel, c, h, hp, _, _ => by
    have e : c = c1 := h
    subst e
    unfold until_unmasked
    simp [hp]
  | n + 1, 0, _, _, _, _, hf => by simp at hf
  | n + 1, fuel + 1, c, h, hp, hm, hf => by
    have h0 : c.m.primask = true := hm 0 (by omega)
    unfold until_unmasked
    rw [if_neg (by simp [h0])]
    exact until_unmasked_of_steps xfer c1 n fuel (step xfer c) h hp
      (fun j hj => hm (j + 1) (by omega)) (by omega)

theorem cleared_singleton (mem : Nat → spi_transfer_t) (d : Nat) :
    cleared mem [d] = store mem d { mem d with done := 0 } := by
  funext x
  unfold cleared store
  by_cases h : x = d
  · subst h; simp
  · simp [h]

/-- The first loop on a descriptor with `next = NULL`: one statement clears `done`,
the next one leaves the loop. -/
theorem steps_clear (m : Machine) (d : Nat) (hn : (m.mem d).next = none) :
    steps (some d) 1 (entry m (some d)) = { m := clear1 m d, pc := Pc.clear none } ∧
    steps (some d) 2 (entry m (some d)) = { m := clear1 m d, pc := Pc.disable_irq } := by
  have h1 : steps (some d) 1 (entry m (some d)) = { m := clear1 m d, pc := Pc.clear none } := by
    show step (some d) (entry m (some d)) = _
    simp only [step, entry, hn, clear1]
  refine ⟨h1, ?_⟩
  rw [steps_succ, h1]
  rfl

/-- The second loop on a finite chain that does not hold the submitted
descriptor: it changes nothing and ends at the last node. -/
theorem steps_walk (m : Machine) (d t : Nat) :
    ∀ (l1 : List Nat) (o : Nat), IsChain m.mem (some o) (l1 ++ [t]) →
      (∀ a ∈ l1, a ≠ d) →
      steps (some d) (l1.length + 1) { m := m, pc := Pc.walk o } = { m := m, pc := Pc.link t } ∧
      ∀ j, j ≤ l1.length + 1 → (steps (some d) j { m := m, pc := Pc.walk o }).m = m
  | [], o, h, _ => by
    have e : some o = some t := h.1
    have hn : (m.mem t).next = none := h.2
    injection e with e
    subst e
    have h1 : steps (some d) 1 { m := m, pc := Pc.walk o } = { m := m, pc := Pc.link o } := by
      show step (some d) { m := m, pc := Pc.walk o } = _
      simp only [step, hn]
    refine ⟨h1, fun j hj => ?_⟩
    have : j = 0 ∨ j = 1 := by simp at hj; omega
    rcases this with rfl | rfl
    · rfl
    · rw [h1]
  | a :: l1, o, h, hx => by
    have e : some o = some a := h.1
    injection e with e
    subst e
    have h2 : IsChain m.mem (m.mem o).next (l1 ++ [t]) := h.2
    obtain ⟨n, hn⟩ : ∃ n, (m.mem o).next = some n := by
      cases l1 with
      | nil => exact ⟨t, h2.1⟩
      | cons b l => exact ⟨b, h2.1⟩
    have hod : ¬ (some o = some d) := by
      intro e
      injection e with e
      exact hx o (List.mem_cons_self _ _) e
    have h1 : step (some d) { m := m, pc := Pc.walk o } = { m := m, pc := Pc.walk n } := by
      simp only [step, hn, hod, if_false]
    obtain ⟨i1, i2⟩ := steps_walk m d t l1 n (hn ▸ h2)
      (fun b hb => hx b (List.mem_cons_of_mem _ hb))
    constructor
    · show steps (some d) (l1.length + 1) (step (some d) _) = _
      rw [h1]
      exact i1
    · intro j hj
      cases j with
      | zero => rfl
      | succ j =>
        show (steps (some d) j (step (some d) _)).m = m
        rw [h1]
        exact i2 j (by simp at hj; omega)

/-- The critical section of a fresh submission: from `__disable_irq()` the call
returns after the walk of the queue, with the result of `spi_transfer`, and the
mask is set at every point in between. -/
theorem steps_critical (m : Machine) (d : Nat) (q : List Nat) (fuel : Nat)
    (hq : Queue m q) (hd : d ∉ q) (hn : (m.mem d).next = none) (hf : q.length + 1 ≤ fuel) :
    ∃ r, spi_transfer fuel m (some d) = Outcome.returned r ∧
      steps (some d) (q.length + 4) { m := clear1 m d, pc := Pc.disable_irq } =
        { m := r, pc := Pc.ret } ∧
      ∀ j, 1 ≤ j → j < q.length + 4 →
        (steps (some d) j { m := clear1 m d, pc := Pc.disable_irq }).m.primask = true := by
  have hdc : IsChain m.mem (some d) [d] := ⟨rfl, hn⟩
  rcases nil_or_snoc q with rfl | ⟨l1, t, rfl⟩
  · have hidle : m.spi.xfer = none := hq
    refine ⟨_, spi_transfer_idle m d [d] fuel hidle hdc (by simp; omega), ?_, ?_⟩
    · rw [cleared_singleton]
      simp only [List.length_nil, Nat.zero_add, steps, step, clear1, hidle]
      simp
    · intro j h1 h2
      have hp := (spi_run_xfer_spec { clear1 m d with primask := true } d).2.2.2.1
      have : j = 1 ∨ j = 2 ∨ j = 3 := by simp at h2; omega
      rcases this with rfl | rfl | rfl
      · rfl
      · simp only [steps, step, clear1, hidle]
        simp
      · simp only [steps, step, clear1, hidle]
        simp only [reduceCtorEq, if_false]
        exact hp
  · have hx := Queue.head_eq hq
    have hne : ¬ (some ((l1 ++ [t]).head (by simp)) = some d) := by
      intro e
      injection e with e
      exact hd (e ▸ List.head_mem _)
    have hch : IsChain (store m.mem d { m.mem d with done := 0 })
        (some ((l1 ++ [t]).head (by simp))) (l1 ++ [t]) := by
      rw [← hx]
      exact IsChain.congr hq (fun a _ => (store_done_fields m.mem d a 0).2.2.2.2)
    have hnot : ∀ a ∈ l1, a ≠ d := by
      rintro a ha rfl
      exact hd (List.mem_append_left _ ha)
    have e2 : steps (some d) 2 { m := clear1 m d, pc := Pc.disable_irq } =
        { m := { clear1 m d with primask := true },
          pc := Pc.walk ((l1 ++ [t]).head (by simp)) } := by
      simp only [steps, step, clear1, hx, hne, if_false]
    obtain ⟨w1, w2⟩ := steps_walk { clear1 m d with primask := true } d t l1 _ hch hnot
    have e3 : steps (some d) (2 + (l1.length + 1)) { m := clear1 m d, pc := Pc.disable_irq } =
        { m := { clear1 m d with primask := true }, pc := Pc.link t } := by
      rw [steps_add, e2, w1]
    have hlen : (l1 ++ [t]).length + 4 = 2 + (l1.length + 1) + 2 := by simp; omega
    refine ⟨_, spi_transfer_busy m d [d] l1 t fuel hq hdc ?_ (by simp; omega)
      (by simp at hf; omega), ?_, ?_⟩
    · rintro a ha rfl
      exact hd ha
    · rw [hlen, steps_add, e3, cleared_singleton]
      rfl
    · intro j h1 h2
      rw [hlen] at h2
      by_cases hj1 : j = 1
      · subst hj1; rfl
      · by_cases hj2 : j ≤ 2 + (l1.length + 1)
        · obtain ⟨i, rfl⟩ : ∃ i, j = 2 + i := ⟨j - 2, by omega⟩
          rw [steps_add, e2, w2 i (by omega)]
        · have hj3 : j = 2 + (l1.length + 1) + 1 := by omega
          rw [hj3, steps_add, e3]
          rfl

/-- The routine `spi_run_xfer` reads only the select pin, the buffers and the count
of the descriptor it starts. -/
theorem spi_run_xfer_mem (m : Machine) (f : Nat → spi_transfer_t) (b : Nat)
    (h1 : (f b).nss = (m.mem b).nss) (h2 : (f b).read_buff = (m.mem b).read_buff)
    (h3 : (f b).write_buff = (m.mem b).write_buff) (h4 : (f b).count = (m.mem b).count) :
    spi_run_xfer { m with mem := f } b = { spi_run_xfer m b with mem := f } := by
  unfold spi_run_xfer
  simp only [h1, h2, h3, h4]
  cases (m.mem b).nss <;> rfl

/-- The handler reads only the select pin of the finishing descriptor. -/
theorem isr_finish_mem (m : Machine) (f : Nat → spi_transfer_t) (a : Nat)
    (h : (f a).nss = (m.mem a).nss) :
    isr_finish { m with mem := f } a =
      { isr_finish m a with mem := store f a { f a with done := 1 } } := by
  cases hn : (m.mem a).nss <;>
  simp only [isr_finish, DMA_Cmd_DISABLE, DMA_ClearFlag, DMA_ClearITPendingBit, write_CR,
    write_BSRRL, Machine.setStream, Machine.stream, h, hn]

theorem store_done_comm (mem : Nat → spi_transfer_t) (a d : Nat) (h : a ≠ d) :
    store (store mem d { mem d with done := 0 }) a
      { store mem d { mem d with done := 0 } a with done := 1 } =
    store (store mem a { mem a with done := 1 }) d
      { store mem a { mem a with done := 1 } d with done := 0 } := by
  funext x
  unfold store
  by_cases hxa : x = a
  · subst hxa; simp [h]
  · by_cases hxd : x = d
    · subst hxd; simp [hxa, Ne.symm h]
    · simp [hxa, hxd]

/-- The handler and the clearing of the `done` flag of a descriptor that is not the
active one commute. -/
theorem isr_clear1_comm (m m1 : Machine) (a d : Nat) (hx : m.spi.xfer = some a)
    (had : a ≠ d) (hr : spi_dma_isr true m = Outcome.returned m1) :
    spi_dma_isr true (clear1 m d) = Outcome.returned (clear1 m1 d) := by
  have hfa : (store m.mem d { m.mem d with done := 0 }) a = m.mem a := store_other _ _ _ _ had
  have e0 := (isr_finish_spec m a).1
  have e1 : isr_finish (clear1 m d) a = clear1 (isr_finish m a) d := by
    unfold clear1
    rw [isr_finish_mem m _ a (by rw [hfa]), store_done_comm m.mem a d had, e0]
  have hx1 : (clear1 m d).spi.xfer = some a := hx
  have hnx : ((clear1 (isr_finish m a) d).mem a).next = ((isr_finish m a).mem a).next := by
    show (store _ _ _ a).next = _
    rw [store_other _ _ _ _ had]
  unfold spi_dma_isr at hr ⊢
  simp only [if_true, hx, hx1] at hr ⊢
  rw [e1, hnx]
  cases hn : ((isr_finish m a).mem a).next with
  | none =>
    rw [hn] at hr
    simp only at hr ⊢
    injection hr with hr
    subst hr
    rfl
  | some b =>
    rw [hn] at hr
    simp only at hr ⊢
    injection hr with hr
    subst hr
    obtain ⟨f1, f2, f3, f4, _⟩ := store_done_fields (isr_finish m a).mem d b 0
    congr 1
    unfold clear1
    rw [spi_run_xfer_mem _ _ b f1 f2 f3 f4]
    have := (spi_run_xfer_spec (isr_finish m a) b).2.2.1
    rw [this]

/-- A call of `spi_transfer` that returns has cleared the interrupt mask. -/
theorem spi_transfer_primask (fuel : Nat) (m r : Machine) (xfer : Option Nat)
    (h : spi_transfer fuel m xfer = Outcome.returned r) : r.primask = false := by
  unfold spi_transfer at h
  cases hc : clear_done fuel m.mem xfer with
  | none => rw [hc] at h; simp at h
  | some mem1 =>
    rw [hc] at h
    simp only at h
    by_cases hx : m.spi.xfer = xfer
    · simp [hx] at h
    · rw [if_neg hx] at h
      cases ho : m.spi.xfer with
      | none =>
        simp only [ho] at h
        cases xfer with
        | none => simp at h
        | some x =>
          simp only at h
          injection h with h
          subst h
          rfl
      | some o =>
        simp only [ho] at h
        cases hw : walk fuel mem1 o xfer with
        | timeout => rw [hw] at h; simp at h
        | spin => rw [hw] at h; simp at h
        | last t =>
          rw [hw] at h
          simp only at h
          injection h with h
          subst h
          rfl

/-- A completion interrupt raised after `k` statements of a fresh submission on a
busy device: the call returns, and the machine is the one that the handler
followed by the whole call leaves, or the one that the whole call followed by
the handler leaves. -/
theorem irq_interleaving (m : Machine) (a d : Nat) (l : List Nat) (fuel k : Nat)
    (hq : Queue m (a :: l)) (hn : (m.mem d).next = none) (hd : d ∉ a :: l)
    (hp : m.primask = false) (hf : l.length + 7 ≤ fuel) :
    ∃ mf, spi_transfer_irq fuel k m (some d) = Outcome.returned mf ∧
      ((∃ m1, spi_dma_isr true m = Outcome.returned m1 ∧
          spi_transfer fuel m1 (some d) = Outcome.returned mf) ∨
       (∃ m1, spi_transfer fuel m (some d) = Outcome.returned m1 ∧
          spi_dma_isr true m1 = Outcome.returned mf)) := by
  have hx : m.spi.xfer = some a := hq.1
  have had : a ≠ d := by
    rintro rfl
    exact hd (List.mem_cons_self _ _)
  have hdl : d ∉ l := fun h => hd (List.mem_cons_of_mem _ h)
  obtain ⟨m1, hisr, _, _, _, hp1, _⟩ := spi_dma_isr_spec m a hx
  obtain ⟨hq1, _, hfr1, _, _⟩ := isr_step m m1 a l hq hisr
  have hn1 : (m1.mem d).next = none := by rw [hfr1 d (Ne.symm had)]; exact hn
  obtain ⟨r1, hr1, hs1, _⟩ := steps_critical m1 d l fuel hq1 hdl hn1 (by omega)
  obtain ⟨r2, hr2, hs2, hm2⟩ := steps_critical m d (a :: l) fuel hq hd hn (by simp; omega)
  have hafter : ∀ k, 3 ≤ k → ∃ mf, spi_transfer_irq fuel k m (some d) = Outcome.returned mf ∧
      spi_dma_isr true r2 = Outcome.returned mf := by
    intro k hk
    have hx2 : r2.spi.xfer = some a := by
      have := (fresh_transfer_step m r2 d (a :: l) fuel hq hd hn hr2).2.2.1 (by rw [hx]; simp)
      rw [this, hx]
    obtain ⟨mf, hisr2, _⟩ := spi_dma_isr_spec r2 a hx2
    have hN : steps (some d) (2 + ((a :: l).length + 4)) (entry m (some d)) =
        { m := r2, pc := Pc.ret } := by
      rw [steps_add, (steps_clear m d hn).2, hs2]
    have hun : until_unmasked (some d) fuel (steps (some d) k (entry m (some d))) =
        some { m := r2, pc := Pc.ret } := by
      refine until_unmasked_of_steps (some d) _ (2 + ((a :: l).length + 4) - k) fuel _ ?_
        (spi_transfer_primask fuel m r2 _ hr2) ?_ (by simp; omega)
      · rw [← steps_add]
        by_cases hkN : k ≤ 2 + ((a :: l).length + 4)
        · rw [Nat.add_sub_cancel' hkN, hN]
        · have e : k + (2 + ((a :: l).length + 4) - k) =
              2 + ((a :: l).length + 4) + (k - (2 + ((a :: l).length + 4))) := by omega
          rw [e, steps_add, hN, steps_ret]
      · intro j hj
        rw [← steps_add]
        obtain ⟨i, hi⟩ : ∃ i, k + j = 2 + i := ⟨k + j - 2, by omega⟩
        rw [hi, steps_add, (steps_clear m d hn).2]
        exact hm2 i (by omega) (by omega)
    refine ⟨mf, ?_, hisr2⟩
    unfold spi_transfer_irq
    rw [hun]
    simp only
    rw [hisr2]
    simp only
    rw [until_ret_of_steps (some d) mf 0 fuel _ rfl (by omega)]
  have hbefore : ∀ c : Thread, c.m.primask = false →
      spi_dma_isr true c.m = Outcome.returned (clear1 m1 d) →
      (∃ n, n ≤ 1 ∧ steps (some d) n { m := clear1 m1 d, pc := c.pc } =
        { m := clear1 m1 d, pc := Pc.disable_irq }) →
      ∀ k, steps (some d) k (entry m (some d)) = c →
        spi_transfer_irq fuel k m (some d) = Outcome.returned r1 := by
    intro c hcp hci ⟨n, hn1, hcs⟩ k hk
    have hun : until_unmasked (some d) fuel (steps (some d) k (entry m (some d))) = some c :=
      until_unmasked_of_steps (some d) c 0 fuel _ (by rw [← hk]; rfl) hcp
        (fun j hj => absurd hj (by omega)) (by omega)
    unfold spi_transfer_irq
    rw [hun]
    simp only
    rw [hci]
    simp only
    rw [until_ret_of_steps (some d) r1 (n + (l.length + 4)) fuel _
      (by rw [steps_add, hcs, hs1]) (by omega)]
  rcases Nat.lt_or_ge k 3 with hk | hk
  · refine ⟨r1, ?_, Or.inl ⟨m1, hisr, hr1⟩⟩
    have hk3 : k = 0 ∨ k = 1 ∨ k = 2 := by omega
    rcases hk3 with rfl | rfl | rfl
    · unfold spi_transfer_irq
      have hun : until_unmasked (some d) fuel (steps (some d) 0 (entry m (some d))) =
          some (entry m (some d)) :=
        until_unmasked_of_steps (some d) _ 0 fuel _ rfl hp
          (fun j hj => absurd hj (by omega)) (by omega)
      rw [hun]
      simp only
      have : (entry m (some d)).m = m := rfl
      rw [this, hisr]
      simp only
      rw [until_ret_of_steps (some d) r1 (2 + (l.length + 4)) fuel _
        (by
          show steps (some d) (2 + (l.length + 4)) (entry m1 (some d)) = _
          rw [steps_add, (steps_clear m1 d hn1).2, hs1]) (by omega)]
    · exact hbefore { m := clear1 m d, pc := Pc.clear none } hp
        (isr_clear1_comm m m1 a d hx had hisr) ⟨1, le_refl _, rfl⟩ 1 (steps_clear m d hn).1
    · exact hbefore { m := clear1 m d, pc := Pc.disable_irq } hp
        (isr_clear1_comm m m1 a d hx had hisr) ⟨0, by omega, rfl⟩ 2 (steps_clear m d hn).2
  · obtain ⟨mf, h1, h2⟩ := hafter k hk
    exact ⟨mf, h1, Or.inr ⟨r2, hr2, h2⟩⟩

/-- At every point of a call of `spi_transfer`, with the handler running between
statements wherever the mask is clear, the mask is set inside the critical
section. -/
theorem run_masked (xfer : Option Nat) (m0 : Machine) (c : Thread) (h : Run xfer m0 c) :
    c.pc.critical = true → c.m.primask = true := by
  induction h with
  | start => intro h; simp [entry, Pc.critical] at h
  | step c _ ih =>
    have hrun : ∀ x, (spi_run_xfer c.m x).primask = c.m.primask :=
      fun x => (spi_run_xfer_spec c.m x).2.2.2.1
    cases hpc : c.pc with
    | clear p =>
      cases p <;> simp [step, hpc, Pc.critical]
    | disable_irq => simp [step, hpc]
    | load =>
      have := ih (by rw [hpc]; rfl)
      intro _
      simp only [step, hpc]
      split
      · exact this
      · split <;> exact this
    | walk o =>
      have := ih (by rw [hpc]; rfl)
      intro _
      simp only [step, hpc]
      split
      · exact this
      · split <;> exact this
    | link o =>
      have := ih (by rw [hpc]; rfl)
      intro _
      simp only [step, hpc]
      exact this
    | run x =>
      have := ih (by rw [hpc]; rfl)
      intro _
      simp only [step, hpc]
      rw [hrun]; exact this
    | enable_irq => simp [step, hpc, Pc.critical]
    | spin =>
      have := ih (by rw [hpc]; rfl)
      intro _
      simp only [step, hpc]
      exact this
    | ret =>
      intro h
      simp only [step, hpc] at h
      simp [Pc.critical] at h
  | irq c it m1 _ hp _ ih =>
    intro h
    have := ih h
    rw [hp] at this
    cases this

/-- A statement of `spi_transfer` that writes `spi->xfer` or a `next` link is in the
critical section. -/
theorem step_writes (xfer : Option Nat) (c : Thread)
    (h : (step xfer c).m.spi.xfer ≠ c.m.spi.xfer ∨
      ∃ x, ((step xfer c).m.mem x).next ≠ (c.m.mem x).next) :
    c.pc.critical = true := by
  cases hpc : c.pc with
  | clear p =>
    exfalso
    cases p with
    | none => simp [step, hpc] at h
    | some a =>
      simp only [step, hpc, ne_eq, not_true_eq_false, false_or] at h
      obtain ⟨x, hx⟩ := h
      exact hx (store_done_fields c.m.mem a x 0).2.2.2.2
  | disable_irq => exfalso; simp [step, hpc] at h
  | enable_irq => rfl
  | load => rfl
  | walk o => rfl
  | link o => rfl
  | run x => rfl
  | spin => rfl
  | ret => exfalso; simp [step, hpc] at h

/-- The only statement that leaves the critical section is `__enable_irq()`: it
clears the mask and the call has returned. -/
theorem step_leaves (xfer : Option Nat) (c : Thread) (h1 : c.pc.critical = true)
    (h2 : (step xfer c).pc.critical = false) :
    (step xfer c).m.primask = false ∧ (step xfer c).pc = Pc.ret := by
  cases hpc : c.pc with
  | clear p => rw [hpc] at h1; simp [Pc.critical] at h1
  | disable_irq => rw [hpc] at h1; simp [Pc.critical] at h1
  | ret => rw [hpc] at h1; simp [Pc.critical] at h1
  | enable_irq => simp [step, hpc]
  | load =>
    exfalso
    simp only [step, hpc] at h2
    revert h2
    split
    · simp [Pc.critical]
    · split <;> simp [Pc.critical]
  | walk o =>
    exfalso
    simp only [step, hpc] at h2
    revert h2
    split
    · simp [Pc.critical]
    · split <;> simp [Pc.critical]
  | link o => exfalso; simp [step, hpc, Pc.critical] at h2
  | run x => exfalso; simp [step, hpc, Pc.critical] at h2
  | spin => exfalso; simp [step, hpc, Pc.critical] at h2

theorem steps_spin (xfer : Option Nat) (c : Thread) (h : c.pc = Pc.spin) :
    ∀ n, steps xfer n c = c
  | 0 => rfl
  | n + 1 => by
    have e : step xfer c = c := by simp only [step, h]
    show steps xfer n (step xfer c) = c
    rw [e]
    exact steps_spin xfer c h n

/-! ## The claims -/

/-- On a device with `xfer = NULL`, a call of `spi_transfer` of a descriptor `d`
returns when the chain of `next` links from `d` is finite, and whenever it
returns `d` is the active descriptor and is started. -/
theorem spi_transfer_idle_post (m : Machine) (d fuel : Nat) (hidle : m.spi.xfer = none) :
    (∀ l, IsChain m.mem (some d) l → l.length ≤ fuel →
      ∃ m1, spi_transfer fuel m (some d) = Outcome.returned m1) ∧
    (∀ m1, spi_transfer fuel m (some d) = Outcome.returned m1 →
      m1.spi.xfer = some d ∧
      (∀ g i, selects (m.mem d) g i → asserted m1 g i) ∧
      m1.writes = m.writes ++ run_writes (m.mem d) m.rx.CR m.tx.CR ∧
      (∀ nss, (m.mem d).nss = some nss → RegWrite.BSRRH nss.gpio nss.pin ∈ m1.writes) ∧
      m1.rx.M0AR = (m.mem d).read_buff ∧ m1.tx.M0AR = (m.mem d).write_buff ∧
      m1.rx.NDTR = (m.mem d).count ∧ m1.tx.NDTR = (m.mem d).count ∧
      enabled m1 Stream.dma_rx_stream ∧ enabled m1 Stream.dma_tx_stream) := by
  refine ⟨fun l hc hf => ⟨_, spi_transfer_idle m d l fuel hidle hc hf⟩, ?_⟩
  intro m1 hr
  unfold spi_transfer at hr
  cases hc : clear_done fuel m.mem (some d) with
  | none => rw [hc] at hr; simp at hr
  | some mem1 =>
    rw [hc] at hr
    simp only [hidle] at hr
    rw [if_neg (by simp)] at hr
    injection hr with hr
    obtain ⟨f1, f2, f3, f4, _⟩ := (clear_done_some fuel m.mem mem1 _ hc).1 d
    obtain ⟨r1, _, _, _, r5, r6, r7, r8, r9, r10, r11, r12⟩ :=
      spi_run_xfer_spec { m with mem := mem1, primask := true } d
    have hw : (spi_run_xfer { m with mem := mem1, primask := true } d).writes =
        m.writes ++ run_writes (m.mem d) m.rx.CR m.tx.CR := by
      rw [r5]
      show m.writes ++ run_writes (mem1 d) m.rx.CR m.tx.CR = _
      unfold run_writes
      rw [f1, f2, f3, f4]
    have ho : ∀ g i, selects (m.mem d) g i →
        (spi_run_xfer { m with mem := mem1, primask := true } d).odr g i = false := by
      intro g i hs
      rw [r6, if_pos ((selects_congr f1 g i).mpr hs)]
    generalize spi_run_xfer { m with mem := mem1, primask := true } d = R
      at hr r1 r7 r8 r9 r10 r11 r12 hw ho
    subst hr
    refine ⟨r1, ho, hw, ?_, r7.trans f2, r8.trans f3, r9.trans f4, r10.trans f4, r11, r12⟩
    intro nss hn
    show _ ∈ R.writes
    rw [hw]
    simp [run_writes, hn]

/-- The first loop of `spi_transfer` does not end on a descriptor linked to
itself. -/
theorem clear_done_self_loop (d : Nat) :
    ∀ (fuel : Nat) (mem : Nat → spi_transfer_t), (mem d).next = some d →
      clear_done fuel mem (some d) = none
  | 0, _, _ => rfl
  | fuel + 1, mem, h => by
    have h1 : (store mem d { mem d with done := 0 } d).next = some d := by
      rw [store_same]; exact h
    show clear_done fuel (store mem d { mem d with done := 0 })
      (store mem d { mem d with done := 0 } d).next = none
    rw [h1]
    exact clear_done_self_loop d fuel _ h1

/-- Statement by statement, the call stays in its first loop on a descriptor linked
to itself, and the active reference of an idle device stays `NULL`. -/
theorem steps_self_loop (d : Nat) :
    ∀ (n : Nat) (c : Thread), c.pc = Pc.clear (some d) → (c.m.mem d).next = some d →
      c.m.spi.xfer = none →
      (steps (some d) n c).pc = Pc.clear (some d) ∧ (steps (some d) n c).m.spi.xfer = none
  | 0, _, h1, _, h3 => ⟨h1, h3⟩
  | n + 1, c, h1, h2, h3 => by
    have e : step (some d) c =
        { m := { c.m with mem := store c.m.mem d { c.m.mem d with done := 0 } }
          pc := Pc.clear (some d) } := by
      simp only [step, h1, h2]
    show (steps (some d) n (step (some d) c)).pc = _ ∧
      (steps (some d) n (step (some d) c)).m.spi.xfer = none
    rw [e]
    exact steps_self_loop d n _ rfl (by
      show (store c.m.mem d { c.m.mem d with done := 0 } d).next = some d
      rw [store_same]; exact h2) h3

/-- C4 (idle-path submission), counterexample.  Descriptor 1 of the memory
`mem_loop` is linked to itself.  Submitted to the idle device, the call of
`spi_transfer` never returns, whatever the fuel: statement by statement it
stays in the loop that clears `done`, and the descriptor never becomes the
active one. -/
theorem self_linked_descriptor_never_starts :
    (idle mem_loop).spi.xfer = none ∧ (mem_loop 1).next = some 1 ∧
    (∀ fuel, spi_transfer fuel (idle mem_loop) (some 1) = Outcome.timeout) ∧
    ∀ n, (steps (some 1) n (entry (idle mem_loop) (some 1))).pc = Pc.clear (some 1) ∧
      (steps (some 1) n (entry (idle mem_loop) (some 1))).m.spi.xfer = none := by
  refine ⟨rfl, rfl, fun fuel => ?_, fun n => steps_self_loop 1 n _ rfl rfl rfl⟩
  unfold spi_transfer
  rw [clear_done_self_loop 1 fuel (idle mem_loop).mem rfl]

/-- C4 as amended (idle-path submission).  On a device with `xfer = NULL`,
`spi_transfer` of a descriptor `d` whose chain of `next` links is finite (it
ends with `NULL`) returns, with fuel for that chain, with `d` as the active
descriptor and `d` started: every line of its select pin is at the active
level, the pin was written to the reset register `BSRRH` of its port, the
receive and transmit engines hold `read_buff`, `write_buff` and `count` of
`d`, and both engines are enabled. -/
theorem idle_submission_starts (m : Machine) (d : Nat) (l : List Nat) (fuel : Nat)
    (hidle : m.spi.xfer = none) (hc : IsChain m.mem (some d) l) (hf : l.length ≤ fuel) :
    ∃ m1, spi_transfer fuel m (some d) = Outcome.returned m1 ∧
      m1.spi.xfer = some d ∧
      (∀ g i, selects (m.mem d) g i → asserted m1 g i) ∧
      m1.writes = m.writes ++ run_writes (m.mem d) m.rx.CR m.tx.CR ∧
      (∀ nss, (m.mem d).nss = some nss → RegWrite.BSRRH nss.gpio nss.pin ∈ m1.writes) ∧
      m1.rx.M0AR = (m.mem d).read_buff ∧ m1.tx.M0AR = (m.mem d).write_buff ∧
      m1.rx.NDTR = (m.mem d).count ∧ m1.tx.NDTR = (m.mem d).count ∧
      enabled m1 Stream.dma_rx_stream ∧ enabled m1 Stream.dma_tx_stream := by
  obtain ⟨m1, h⟩ := (spi_transfer_idle_post m d fuel hidle).1 l hc hf
  exact ⟨m1, h, (spi_transfer_idle_post m d fuel hidle).2 m1 h⟩

/-- Witness of C4 as amended: descriptor 1 of the example memory, with the exact
registers, lines and register writes that the call leaves. -/
theorem idle_submission_starts_witness :
    (idle mem0).spi.xfer = none ∧ IsChain (idle mem0).mem (some 1) [1] ∧
    ∃ m1, spi_transfer 1 (idle mem0) (some 1) = Outcome.returned m1 ∧
      m1.spi.xfer = some 1 ∧ asserted m1 4 1 ∧
      m1.rx.M0AR = 0x20000010 ∧ m1.tx.M0AR = 0x20001010 ∧
      m1.rx.NDTR = 2 ∧ m1.tx.NDTR = 2 ∧
      RegWrite.BSRRH 4 2 ∈ m1.writes ∧
      enabled m1 Stream.dma_rx_stream ∧ enabled m1 Stream.dma_tx_stream := by
  refine ⟨rfl, by decide, ?_⟩
  obtain ⟨m1, h, h1, h2, _, h4, h5, h6, h7, h8, h9, h10⟩ :=
    idle_submission_starts (idle mem0) 1 [1] 1 rfl (by decide) (by decide)
  exact ⟨m1, h, h1, h2 4 1 (by decide), h5, h6, h7, h8, h4 _ rfl, h9, h10⟩

/-- C5 (busy-path submission).  On a device whose chain from the active descriptor
`a` is the finite list `a, c1..ck`, `spi_transfer` of a descriptor `d` with
`next = NULL` that is not in that chain returns, leaves `a` active, makes the
chain `a, c1..ck, d` by linking `d` after the former last node, changes no other
`next` link, and touches no hardware: the list of register writes, the line
levels and both engines are as before. -/
theorem busy_submission_appends (m : Machine) (a d : Nat) (cs : List Nat) (fuel : Nat)
    (hq : Queue m (a :: cs)) (hn : (m.mem d).next = none) (hd : d ∉ a :: cs)
    (hf : cs.length + 1 ≤ fuel) :
    ∃ m1, spi_transfer fuel m (some d) = Outcome.returned m1 ∧
      m1.spi.xfer = some a ∧ Queue m1 (a :: cs ++ [d]) ∧
      (m1.mem ((a :: cs).getLast (by simp))).next = some d ∧
      (∀ x, x ≠ (a :: cs).getLast (by simp) → (m1.mem x).next = (m.mem x).next) ∧
      m1.writes = m.writes ∧ m1.odr = m.odr ∧ m1.rx = m.rx ∧ m1.tx = m.tx := by
  have hq1 : Queue m ((a :: cs).dropLast ++ [(a :: cs).getLast (by simp)]) := by
    rw [List.dropLast_append_getLast]; exact hq
  have hdc : IsChain m.mem (some d) [d] := ⟨rfl, hn⟩
  have hlen : (a :: cs).dropLast.length ≤ fuel := by
    rw [List.length_dropLast]; simp; omega
  have hd1 : ∀ x ∈ (a :: cs).dropLast ++ [(a :: cs).getLast (by simp)], x ≠ d := by
    rw [List.dropLast_append_getLast]
    rintro x hx rfl
    exact hd hx
  refine ⟨_, spi_transfer_busy m d [d] _ _ fuel hq1 hdc hd1 (by simp; omega) hlen, hq.1, ?_,
    ?_, ?_, rfl, rfl, rfl, rfl⟩
  · have h1 : IsChain (cleared m.mem [d]) m.spi.xfer
        ((a :: cs).dropLast ++ [(a :: cs).getLast (by simp)]) :=
      IsChain.congr hq1 (fun x _ => cleared_next _ _ _)
    have h2 : IsChain (cleared m.mem [d]) (some d) [d] :=
      IsChain.congr hdc (fun x _ => cleared_next _ _ _)
    have ht : (a :: cs).getLast (by simp) ∉ [d] := by
      intro h
      rw [List.mem_singleton] at h
      exact hd (h ▸ List.getLast_mem _)
    have h3 := IsChain.append _ (some d) [d] h2 ht _ _ h1
    rw [List.dropLast_append_getLast] at h3
    exact h3
  · show (store _ _ _ _).next = _
    rw [store_same]
  · intro x hx
    show (store _ _ _ x).next = _
    rw [store_other _ _ _ _ hx, cleared_next]

/-- Witness of C5: descriptor 3 is submitted while 1 is active and 2 is queued. -/
theorem busy_submission_appends_witness :
    Queue { idle (store mem0 1 { mem0 1 with next := some 2 }) with
        spi := { xfer := some 1, is_init := 1 } } [1, 2] ∧
    ∃ m1, spi_transfer 2 { idle (store mem0 1 { mem0 1 with next := some 2 }) with
        spi := { xfer := some 1, is_init := 1 } } (some 3) = Outcome.returned m1 ∧
      Queue m1 [1, 2, 3] :=
  ⟨by decide,
    (busy_submission_appends { idle (store mem0 1 { mem0 1 with next := some 2 }) with
        spi := { xfer := some 1, is_init := 1 } } 1 3 [2] 2 (by decide) rfl (by decide)
        (by decide)).imp (fun _ h => ⟨h.1, h.2.2.1⟩)⟩

/-- C6 (completion handling).  When `a` is the active descriptor, `spi_dma_isr` with
the completion flag set returns; it writes the pin of `a` to the set register
`BSRRL` (deassert), then writes both stream control registers with the enable
bit cleared and clears the flags; it sets `a.done` to 1 and changes no other
descriptor.  If `a.next` is a descriptor `b`, `b` becomes the active descriptor
and is started (its lines at the active level, the engines programmed with its
buffers and count and enabled, the lines of `a` that `b` does not share at the
inactive level); otherwise the active reference becomes `NULL`, the lines of
`a` are at the inactive level and both engines are disabled. -/
theorem completion_handling (m : Machine) (a : Nat) (h : m.spi.xfer = some a) :
    ∃ m1, spi_dma_isr true m = Outcome.returned m1 ∧
      m1.mem a = { m.mem a with done := 1 } ∧
      (∀ x, x ≠ a → m1.mem x = m.mem x) ∧
      m1.writes = m.writes ++ isr_writes (m.mem a) m.rx.CR m.tx.CR ++
        (match (m.mem a).next with
          | some b => run_writes (m.mem b) (m.rx.CR &&& (0xFFFFFFFF ^^^ DMA_SxCR_EN))
              (m.tx.CR &&& (0xFFFFFFFF ^^^ DMA_SxCR_EN))
          | none => []) ∧
      (match (m.mem a).next with
        | some b =>
          m1.spi.xfer = some b ∧
          (∀ g i, selects (m.mem b) g i → asserted m1 g i) ∧
          (∀ g i, selects (m.mem a) g i → ¬ selects (m.mem b) g i → ¬ asserted m1 g i) ∧
          m1.rx.M0AR = (m.mem b).read_buff ∧ m1.tx.M0AR = (m.mem b).write_buff ∧
          m1.rx.NDTR = (m.mem b).count ∧ m1.tx.NDTR = (m.mem b).count ∧
          enabled m1 Stream.dma_rx_stream ∧ enabled m1 Stream.dma_tx_stream
        | none =>
          m1.spi.xfer = none ∧
          (∀ g i, selects (m.mem a) g i → ¬ asserted m1 g i) ∧
          ¬ enabled m1 Stream.dma_rx_stream ∧ ¬ enabled m1 Stream.dma_tx_stream) := by
  obtain ⟨m1, hr, hmem, hx, _, _, hw, ho, hs⟩ := spi_dma_isr_spec m a h
  refine ⟨m1, hr, ?_, ?_, hw, ?_⟩
  · rw [hmem, store_same]
  · intro x hxa
    rw [hmem, store_other _ _ _ _ hxa]
  · cases hnx : (m.mem a).next with
    | none =>
      simp only [hnx] at hx ho hs ⊢
      refine ⟨hx, ?_, hs⟩
      intro g i hsel
      unfold asserted
      rw [ho, if_pos hsel]
      simp
    | some b =>
      simp only [hnx] at hx ho hs ⊢
      refine ⟨hx, ?_, ?_, hs⟩
      · intro g i hsel
        unfold asserted
        rw [ho, if_pos hsel]
      · intro g i hsa hsb
        unfold asserted
        rw [ho, if_neg hsb, if_pos hsa]
        simp

/-- Witness of C6: descriptor 1 completes while 2 is queued behind it. -/
theorem completion_handling_witness :
    busy12.spi.xfer = some 1 ∧
    ∃ m1, spi_dma_isr true busy12 = Outcome.returned m1 ∧ (m1.mem 1).done = 1 :=
  ⟨rfl, (completion_handling busy12 1 rfl).imp (fun _ h => ⟨h.1, by rw [h.2.1]⟩)⟩

/-- C2 (no duplicate enqueue), evaluation of the code at the failing input.  With
descriptor 1 active and descriptor 2 the last queued one, `spi_transfer` of
descriptor 2 is not rejected: the walk stops at the last node without comparing
it with the submitted pointer, the call returns and has written `next` of
descriptor 2, which now points to itself. -/
theorem duplicate_of_last_is_accepted :
    Queue busy12 [1, 2] ∧ (busy12.mem 2).next = none ∧
    ∃ m1, spi_transfer 2 busy12 (some 2) = Outcome.returned m1 ∧
      (m1.mem 2).next = some 2 :=
  ⟨by decide, rfl, _, rfl, rfl⟩

/-- C10 (spurious completion), counterexample.  On the idle example device an
invocation of `spi_dma_isr` with the completion flag set does not return: it
reads `spi->xfer->nss` through the null active reference. -/
theorem spurious_completion_faults :
    (idle mem0).spi.xfer = none ∧ spi_dma_isr true (idle mem0) = Outcome.fault :=
  ⟨rfl, rfl⟩

/-- C10 as amended (spurious completion).  On every device whose active reference
is `NULL`, an invocation of `spi_dma_isr` with the completion flag set does not
return safely: the handler has no guard, its first action reads
`spi->xfer->nss` through the absent descriptor, and the invocation ends in
that fault.  Nothing is reported: no outcome of the handler on an idle device
carries a counter or a flag, and the only invocation that returns there is the
one with the flag clear, which leaves the whole machine as it was.  With the
flag set the handler returns exactly when an active descriptor is present. -/
theorem spurious_completion (m : Machine) (h : m.spi.xfer = none) :
    spi_dma_isr true m = Outcome.fault ∧
    (∀ it_status m1, spi_dma_isr it_status m = Outcome.returned m1 →
      it_status = false ∧ m1 = m) ∧
    (∀ m2 : Machine, (∃ m1, spi_dma_isr true m2 = Outcome.returned m1) ↔
      m2.spi.xfer ≠ none) := by
  refine ⟨by simp only [spi_dma_isr, h, if_true], ?_, ?_⟩
  · intro it m1 hr
    rcases isr_returned m m1 it hr with ⟨h1, h2⟩ | ⟨_, a, ha⟩
    · exact ⟨h1, h2⟩
    · rw [h] at ha
      cases ha
  · intro m2
    constructor
    · rintro ⟨m1, hr⟩ hx
      simp [spi_dma_isr, hx] at hr
    · intro hx
      cases hm : m2.spi.xfer with
      | none => exact absurd hm hx
      | some a =>
        obtain ⟨m1, hr, _⟩ := spi_dma_isr_spec m2 a hm
        exact ⟨m1, hr⟩

/-- Witness of C10 as amended: the idle device over the memory `mem12`; the handler
faults with the flag set and returns once a descriptor is active. -/
theorem spurious_completion_witness :
    (idle mem12).spi.xfer = none ∧
    spi_dma_isr true (idle mem12) = Outcome.fault ∧
    ∃ m1, spi_dma_isr true busy12 = Outcome.returned m1 :=
  ⟨rfl, (spurious_completion (idle mem12) rfl).1,
    ((spurious_completion (idle mem12) rfl).2.2 busy12).mpr (by decide)⟩

/-- C7 (submission side effect), counterexample.  Descriptor 1 whose `next` link
holds descriptor 2 is submitted to the idle device: the call returns with `done`
cleared, and the link still holds descriptor 2. -/
theorem next_link_is_not_cleared :
    (idle mem12).spi.xfer = none ∧ (mem12 1).next = some 2 ∧
    ∃ m1, spi_transfer 2 (idle mem12) (some 1) = Outcome.returned m1 ∧
      (m1.mem 1).done = 0 ∧ (m1.mem 1).next = some 2 :=
  ⟨rfl, rfl, _, rfl, rfl, rfl⟩

/-- C3 (reuse after completion), counterexample.  Descriptors 1 and 2 are
submitted to the idle device, the handler completes 1 (its `done` flag is 1 and
its `next` link still holds 2), and 1 is submitted again as it stands: the call
returns with 2 active, `2.next = 1` and `1.next = 2`, so the chain from the
active reference is a cycle and no finite list is the queue. -/
theorem reuse_as_it_stands_makes_cycle :
    ∃ m1 m2 m3 m4,
      spi_transfer 2 (idle mem0) (some 1) = Outcome.returned m1 ∧
      spi_transfer 2 m1 (some 2) = Outcome.returned m2 ∧
      spi_dma_isr true m2 = Outcome.returned m3 ∧
      (m3.mem 1).done = 1 ∧
      spi_transfer 2 m3 (some 1) = Outcome.returned m4 ∧
      m4.spi.xfer = some 2 ∧ (m4.mem 2).next = some 1 ∧ (m4.mem 1).next = some 2 ∧
      ∀ l, ¬ Queue m4 l := by
  exact ⟨_, _, _, _, rfl, rfl, rfl, rfl, rfl, rfl, rfl, rfl,
    no_queue_of_two_cycle _ 2 1 rfl rfl rfl⟩

/-- C7 as amended.  A descriptor `d` that is not in the finite queue of the device
and whose own chain of `next` links is finite is accepted by `spi_transfer`
(the call returns, with fuel for both).  Whenever `spi_transfer` accepts a
descriptor `d`, `d.done` is 0 on return, and the submission has not cleared
`d.next`: if `d` was not already in the queue of the device, the link holds
what it held before the call. -/
theorem submission_side_effect (m : Machine) (d fuel : Nat) :
    (∀ l ld, Queue m l → d ∉ l → IsChain m.mem (some d) ld →
      l.length + ld.length ≤ fuel →
      ∃ m1, spi_transfer fuel m (some d) = Outcome.returned m1) ∧
    (∀ m1, spi_transfer fuel m (some d) = Outcome.returned m1 →
      (m1.mem d).done = 0 ∧
      ∀ l, Queue m l → d ∉ l → (m1.mem d).next = (m.mem d).next) := by
  constructor
  · intro l ld hq hd hdc hf
    rcases nil_or_snoc l with rfl | ⟨l1, t, rfl⟩
    · exact ⟨_, spi_transfer_idle m d ld fuel hq hdc (by omega)⟩
    · refine ⟨_, spi_transfer_busy m d ld l1 t fuel hq hdc ?_ (by omega) ?_⟩
      · rintro a ha rfl
        exact hd ha
      · simp at hf; omega
  intro m1 hr
  unfold spi_transfer at hr
  cases hc : clear_done fuel m.mem (some d) with
  | none => rw [hc] at hr; simp at hr
  | some mem1 =>
    rw [hc] at hr
    obtain ⟨c1, _⟩ := clear_done_some fuel m.mem mem1 _ hc
    have c3 := clear_done_head fuel m.mem mem1 d hc
    simp only at hr
    by_cases hx : m.spi.xfer = some d
    · simp [hx] at hr
    · rw [if_neg hx] at hr
      cases ho : m.spi.xfer with
      | none =>
        simp only [ho] at hr
        injection hr with hr
        obtain ⟨_, _, r3, _⟩ :=
          spi_run_xfer_spec { m with mem := mem1, primask := true } d
        generalize spi_run_xfer { m with mem := mem1, primask := true } d = R at hr r3
        subst hr
        have hmem : R.mem = mem1 := r3
        refine ⟨?_, fun l _ _ => ?_⟩
        · show (R.mem d).done = 0
          rw [hmem]; exact c3
        · show (R.mem d).next = _
          rw [hmem]; exact (c1 d).2.2.2.2
      | some o =>
        simp only [ho] at hr
        cases hw : walk fuel mem1 o (some d) with
        | timeout => rw [hw] at hr; simp at hr
        | spin => rw [hw] at hr; simp at hr
        | last r =>
          rw [hw] at hr
          simp only at hr
          injection hr with hr
          subst hr
          refine ⟨?_, fun l hq hd => ?_⟩
          · show (store mem1 r { mem1 r with next := some d } d).done = 0
            unfold store
            split
            · next e => rw [← e]; exact c3
            · exact c3
          · rcases nil_or_snoc l with rfl | ⟨l1, t, rfl⟩
            · have : m.spi.xfer = none := hq
              rw [this] at ho
              cases ho
            · have hq1 : IsChain mem1 (some o) (l1 ++ [t]) := by
                rw [← ho]
                exact IsChain.congr hq (fun a _ => (c1 a).2.2.2.2)
              have hrt := walk_last_eq mem1 (some d) t r l1 fuel o hq1 hw
              have hdr : d ≠ r := by
                rintro rfl
                exact hd (by rw [hrt]; simp)
              show (store mem1 r { mem1 r with next := some d } d).next = _
              rw [store_other _ _ _ _ hdr]
              exact (c1 d).2.2.2.2

/-- Witness of C7 as amended: descriptor 1, linked to 2, is accepted on the idle
device, with `done` cleared and the link kept. -/
theorem submission_side_effect_witness :
    Queue (idle mem12) [] ∧ IsChain (idle mem12).mem (some 1) [1, 2] ∧
    ∃ m1, spi_transfer 2 (idle mem12) (some 1) = Outcome.returned m1 ∧
      (m1.mem 1).done = 0 ∧ (m1.mem 1).next = ((idle mem12).mem 1).next := by
  refine ⟨by decide, by decide, ?_⟩
  obtain ⟨m1, h⟩ := (submission_side_effect (idle mem12) 1 2).1 [] [1, 2] (by decide)
    (by simp) (by decide) (by decide)
  have h2 := (submission_side_effect (idle mem12) 1 2).2 m1 h
  exact ⟨m1, h, h2.1, h2.2 [] (by decide) (by simp)⟩

/-- C1 (FIFO order).  Pairwise distinct descriptors `ds`, each with `next = NULL`,
are submitted with `spi_transfer` to an idle device; every call returns.  Then,
for every `k` up to their number, `k` invocations of the completion handler
with the flag set return and leave exactly the first `k` submitted descriptors
done, the others not done and queued in submission order with the next one
active, and the device idle after the last. -/
theorem fifo_order (m : Machine) (ds : List Nat) (fuel : Nat)
    (hidle : m.spi.xfer = none) (hnd : ds.Nodup)
    (hn : ∀ d ∈ ds, (m.mem d).next = none) (hf : ds.length ≤ fuel) :
    ∃ m1, submit_all fuel m ds = Outcome.returned m1 ∧
      ∀ k, k ≤ ds.length → ∃ mk, complete k m1 = Outcome.returned mk ∧
        (∀ d ∈ ds.take k, (mk.mem d).done = 1) ∧
        (∀ d ∈ ds.drop k, (mk.mem d).done = 0) ∧
        Queue mk (ds.drop k) ∧ mk.spi.xfer = ds[k]? ∧
        (k = ds.length → mk.spi.xfer = none) := by
  obtain ⟨m1, hr, hq, hdone⟩ := submit_all_spec fuel ds m [] hidle (by simp)
    (by simpa using hnd) hn (by simpa using hf)
  refine ⟨m1, hr, fun k hk => ?_⟩
  obtain ⟨mk, hc, hqk, h1, h0, _⟩ := complete_spec k m1 ds (by simpa using hq)
    (by simpa using hdone) hk
  have hx : mk.spi.xfer = ds[k]? := by
    rw [Queue.xfer_eq hqk, List.head?_drop]
  refine ⟨mk, hc, h1, h0, hqk, hx, fun e => ?_⟩
  rw [hx, e]
  simp

/-- Witness of C1: descriptors 1, 2, 3 of the example memory on the idle device. -/
theorem fifo_order_witness :
    (idle mem0).spi.xfer = none ∧ [1, 2, 3].Nodup ∧
    ∃ m1, submit_all 3 (idle mem0) [1, 2, 3] = Outcome.returned m1 ∧
      ∃ m2, complete 2 m1 = Outcome.returned m2 ∧
        (m2.mem 1).done = 1 ∧ (m2.mem 2).done = 1 ∧ (m2.mem 3).done = 0 := by
  refine ⟨rfl, by decide, ?_⟩
  obtain ⟨m1, h1, h2⟩ := fifo_order (idle mem0) [1, 2, 3] 3 rfl (by decide)
    (fun d _ => rfl) (by decide)
  obtain ⟨m2, h3, h4, h5, _⟩ := h2 2 (by decide)
  exact ⟨m1, h1, m2, h3, h4 1 (by decide), h4 2 (by decide), h5 3 (by decide)⟩

/-- C9 (monotonic completion).  From an idle device, in every state reached by
calls of `spi_transfer` on fresh descriptors and invocations of the completion
handler, the queue is a finite list `l` and:
* every descriptor in it (the active one and the queued ones) has `done = 0`;
* a call of `spi_transfer` on a fresh descriptor `d` returns, puts `d` at the end
  of the queue with `done = 0` and changes no other `done` flag;
* an invocation of the handler changes a `done` flag from 0 only with the
  completion flag set, only for the descriptor that is active at that
  invocation, and to 1;
* the invocation of the handler with the flag set while `x` is active returns,
  raises `x.done` from 0 to 1, changes no other descriptor and takes `x` out of
  the queue;
* so each queued descriptor is completed exactly once: after `k` invocations
  the first `k` descriptors of `l` have `done = 1`, the others still have
  `done = 0` and are the queue. -/
theorem monotonic_completion (m0 m : Machine) (h0 : m0.spi.xfer = none)
    (hr : Reachable m0 m) :
    ∃ l, Queue m l ∧ (∀ d ∈ l, (m.mem d).done = 0) ∧
      (∀ d, Fresh m d →
        (∃ m1, spi_transfer (l.length + 1) m (some d) = Outcome.returned m1) ∧
        ∀ fuel m1, spi_transfer fuel m (some d) = Outcome.returned m1 →
          Queue m1 (l ++ [d]) ∧ (m1.mem d).done = 0 ∧
          ∀ x, x ≠ d → (m1.mem x).done = (m.mem x).done) ∧
      (∀ it_status m1, spi_dma_isr it_status m = Outcome.returned m1 →
        ∀ x, (m.mem x).done = 0 → (m1.mem x).done ≠ 0 →
          it_status = true ∧ m.spi.xfer = some x ∧ (m1.mem x).done = 1 ∧
          ∀ l1, Queue m1 l1 → x ∉ l1) ∧
      (∀ x t, l = x :: t →
        ∃ m1, spi_dma_isr true m = Outcome.returned m1 ∧
          (m.mem x).done = 0 ∧ (m1.mem x).done = 1 ∧
          (∀ y, y ≠ x → m1.mem y = m.mem y) ∧ Queue m1 t ∧ x ∉ t) ∧
      (∀ k, k ≤ l.length →
        ∃ mk, complete k m = Outcome.returned mk ∧
          (∀ d ∈ l.take k, (mk.mem d).done = 1) ∧
          (∀ d ∈ l.drop k, (mk.mem d).done = 0) ∧ Queue mk (l.drop k)) := by
  obtain ⟨l, hq, hdone⟩ := reachable_queue m0 m h0 hr
  refine ⟨l, hq, hdone, ?_, ?_, ?_, ?_⟩
  · intro d hfresh
    obtain ⟨hn, l2, hq2, hd⟩ := hfresh
    have e := IsChain.unique hq2 hq
    subst e
    refine ⟨fresh_transfer_returns m d l2 _ hq hd hn (le_refl _), ?_⟩
    intro fuel m1 hret
    obtain ⟨s1, _, _, s4, s5, _⟩ := fresh_transfer_step m m1 d l2 fuel hq hd hn hret
    exact ⟨s1, s4, s5⟩
  · intro it m1 hret x hx hx1
    rcases isr_returned m m1 it hret with ⟨_, rfl⟩ | ⟨rfl, a, ha⟩
    · exact absurd hx hx1
    · cases l with
      | nil =>
        have : m.spi.xfer = none := hq
        rw [this] at ha
        cases ha
      | cons b l =>
        have e : m.spi.xfer = some b := hq.1
        rw [e] at ha
        injection ha with ha
        subst ha
        obtain ⟨s1, s2, s3, _, s5⟩ := isr_step m m1 b l hq hret
        have hxb : x = b := by
          by_contra hne
          rw [s3 x hne] at hx1
          exact hx1 hx
        subst hxb
        refine ⟨rfl, e, s2, fun l2 hq2 => ?_⟩
        rw [IsChain.unique hq2 s1]
        exact s5
  · intro x t e
    subst e
    obtain ⟨m1, hret, _⟩ := spi_dma_isr_spec m x hq.1
    obtain ⟨s1, s2, s3, _, s5⟩ := isr_step m m1 x t hq hret
    exact ⟨m1, hret, hdone x (List.mem_cons_self _ _), s2, s3, s1, s5⟩
  · intro k hk
    obtain ⟨mk, hc, hqk, h1, h2, _⟩ := complete_spec k m l hq hdone hk
    exact ⟨mk, hc, h1, h2, hqk⟩

/-- Witness of C9: descriptors 1 and 2 are submitted to the idle example device and
are queued with `done = 0`; the handler then completes descriptor 1 and only
descriptor 1, which leaves the queue. -/
theorem monotonic_completion_witness :
    ∃ m1 m, spi_transfer 2 (idle mem0) (some 1) = Outcome.returned m1 ∧
      spi_transfer 2 m1 (some 2) = Outcome.returned m ∧
      Queue m [1, 2] ∧ (m.mem 1).done = 0 ∧ (m.mem 2).done = 0 ∧
      ∃ mk, spi_dma_isr true m = Outcome.returned mk ∧
        (mk.mem 1).done = 1 ∧ (mk.mem 2).done = 0 ∧ Queue mk [2] := by
  refine ⟨_, _, rfl, rfl, ?_⟩
  obtain ⟨l, hq, hdone, _, _, hdoes, _⟩ := monotonic_completion (idle mem0) _ rfl
    (Reachable.transfer _ _ 2 2
      (Reachable.transfer (idle mem0) _ 2 1 Reachable.start ⟨rfl, [], rfl, by simp⟩ rfl)
      ⟨rfl, [1], by decide, by decide⟩ rfl)
  have e : l = [1, 2] := IsChain.unique hq (by decide)
  subst e
  obtain ⟨mk, h1, _, h3, h4, h5, _⟩ := hdoes 1 [2] rfl
  refine ⟨hq, hdone 1 (by decide), hdone 2 (by decide), mk, h1, h3, ?_, h5⟩
  rw [h4 2 (by decide)]
  exact hdone 2 (by decide)

/-- C3 as amended.  From an idle device, in every state reached by calls of
`spi_transfer` on fresh descriptors and invocations of the completion handler,
a descriptor `d` whose `done` flag is 1 and whose `next` link is `NULL` may be
passed to `spi_transfer` again: the call returns, the queue of the device is
the former queue followed by `d` and has no descriptor twice, `d` is the
active descriptor if the device was idle and the new last element otherwise,
and no other descriptor is added. -/
theorem reuse_after_completion (m0 m : Machine) (d : Nat) (h0 : m0.spi.xfer = none)
    (hr : Reachable m0 m) (hdone : (m.mem d).done = 1) (hn : (m.mem d).next = none) :
    ∃ l m1, Queue m l ∧ spi_transfer (l.length + 1) m (some d) = Outcome.returned m1 ∧
      Queue m1 (l ++ [d]) ∧ (l ++ [d]).Nodup ∧
      (m.spi.xfer = none → m1.spi.xfer = some d) ∧
      (m.spi.xfer ≠ none → m1.spi.xfer = m.spi.xfer) := by
  obtain ⟨l, hq, hd0⟩ := reachable_queue m0 m h0 hr
  have hd : d ∉ l := by
    intro h
    have := hd0 d h
    rw [hdone] at this
    cases this
  obtain ⟨m1, hret⟩ := fresh_transfer_returns m d l (l.length + 1) hq hd hn (le_refl _)
  obtain ⟨s1, s2, s3, _⟩ := fresh_transfer_step m m1 d l _ hq hd hn hret
  exact ⟨l, m1, hq, hret, s1, IsChain.nodup s1, s2, s3⟩

/-- Witness of C3 as amended: descriptor 1 is submitted to the idle example
device, completes, and is submitted again. -/
theorem reuse_after_completion_witness :
    ∃ m1 m2, spi_transfer 1 (idle mem0) (some 1) = Outcome.returned m1 ∧
      spi_dma_isr true m1 = Outcome.returned m2 ∧
      (m2.mem 1).done = 1 ∧ (m2.mem 1).next = none ∧
      ∃ l m3, Queue m2 l ∧ spi_transfer (l.length + 1) m2 (some 1) = Outcome.returned m3 ∧
        Queue m3 (l ++ [1]) :=
  ⟨_, _, rfl, rfl, rfl, rfl,
    (reuse_after_completion (idle mem0) _ 1 rfl
      (Reachable.isr _ _ true
        (Reachable.transfer (idle mem0) _ 1 1 Reachable.start ⟨rfl, [], rfl, by simp⟩ rfl)
        rfl) rfl rfl).imp
      (fun _ h => h.imp (fun _ h2 => ⟨h2.1, h2.2.1, h2.2.2.1⟩))⟩

/-- C11 (mutual exclusion), counterexample.  Descriptor 1 is the active descriptor
of the example device and is submitted again with interrupts enabled: the call
does not return, it is in `while(1);` with the interrupt mask set, and after
five statements it stays at that point of the critical section for ever. -/
theorem critical_section_spins :
    busy12.spi.xfer = some 1 ∧ busy12.primask = false ∧
    (∃ m1, spi_transfer 2 busy12 (some 1) = Outcome.spin m1 ∧ m1.primask = true) ∧
    ∀ n, (steps (some 1) (5 + n) (entry busy12 (some 1))).pc = Pc.spin ∧
      (steps (some 1) (5 + n) (entry busy12 (some 1))).pc.critical = true ∧
      (steps (some 1) (5 + n) (entry busy12 (some 1))).m.primask = true := by
  refine ⟨rfl, rfl, ⟨_, rfl, rfl⟩, fun n => ?_⟩
  rw [steps_add, steps_spin (some 1) _ rfl n]
  exact ⟨rfl, rfl, rfl⟩

/-- C11 as amended.  In every call of `spi_transfer`, with the completion handler
running between statements wherever the interrupt mask is clear: the mask is
set at every point of the critical section, a statement that writes
`spi->xfer` or a `next` link is executed with the mask set, and the statement
that leaves the critical section clears the mask and returns.  For a fresh
descriptor `d` (`next = NULL`, neither active nor queued) submitted with
interrupts enabled to a busy device with the finite queue `a, l`, the critical
section ends: whatever the statement after which the completion interrupt is
raised, the call returns, and the machine is the one left by the handler
followed by the whole call or the one left by the whole call followed by the
handler; the queue is `l` followed by `d`, with no descriptor twice, and `a`
is done. -/
theorem mutual_exclusion (m : Machine) (a d : Nat) (l : List Nat)
    (hq : Queue m (a :: l)) (hn : (m.mem d).next = none) (hd : d ∉ a :: l)
    (hp : m.primask = false) :
    (∀ xfer m0 c, Run xfer m0 c →
      (c.pc.critical = true → c.m.primask = true) ∧
      ((step xfer c).m.spi.xfer ≠ c.m.spi.xfer ∨
          (∃ x, ((step xfer c).m.mem x).next ≠ (c.m.mem x).next) → c.m.primask = true) ∧
      (c.pc.critical = true → (step xfer c).pc.critical = false →
          (step xfer c).m.primask = false ∧ (step xfer c).pc = Pc.ret)) ∧
    (∀ k fuel, l.length + 7 ≤ fuel →
      ∃ mf, spi_transfer_irq fuel k m (some d) = Outcome.returned mf ∧
        ((∃ m1, spi_dma_isr true m = Outcome.returned m1 ∧
            spi_transfer fuel m1 (some d) = Outcome.returned mf) ∨
         (∃ m1, spi_transfer fuel m (some d) = Outcome.returned m1 ∧
            spi_dma_isr true m1 = Outcome.returned mf)) ∧
        Queue mf (l ++ [d]) ∧ (l ++ [d]).Nodup ∧ (mf.mem a).done = 1) := by
  constructor
  · intro xfer m0 c hrun
    have hmask := run_masked xfer m0 c hrun
    exact ⟨hmask, fun h => hmask (step_writes xfer c h), step_leaves xfer c⟩
  · intro k fuel hf
    have had : a ≠ d := by
      rintro rfl
      exact hd (List.mem_cons_self _ _)
    have hdl : d ∉ l := fun h => hd (List.mem_cons_of_mem _ h)
    obtain ⟨mf, hret, hseq⟩ := irq_interleaving m a d l fuel k hq hn hd hp hf
    have hfin : Queue mf (l ++ [d]) ∧ (mf.mem a).done = 1 := by
      rcases hseq with ⟨m1, h1, h2⟩ | ⟨m1, h1, h2⟩
      · obtain ⟨i1, i2, i3, _, _⟩ := isr_step m m1 a l hq h1
        have hn1 : (m1.mem d).next = none := by rw [i3 d (Ne.symm had)]; exact hn
        obtain ⟨s1, _, _, _, s5, _⟩ := fresh_transfer_step m1 mf d l fuel i1 hdl hn1 h2
        exact ⟨s1, by rw [s5 a had]; exact i2⟩
      · obtain ⟨s1, _, _, _, _, _⟩ := fresh_transfer_step m m1 d (a :: l) fuel hq hd hn h1
        obtain ⟨i1, i2, _⟩ := isr_step m1 mf a (l ++ [d]) s1 h2
        exact ⟨i1, i2⟩
    exact ⟨mf, hret, hseq, hfin.1, IsChain.nodup hfin.1, hfin.2⟩

/-- Witness of C11 as amended: descriptor 3 is submitted while 1 is active and 2 is
queued, and the completion interrupt is raised after the first statement. -/
theorem mutual_exclusion_witness :
    Queue busy12 [1, 2] ∧ (busy12.mem 3).next = none ∧ busy12.primask = false ∧
    ∃ mf, spi_transfer_irq 8 1 busy12 (some 3) = Outcome.returned mf ∧
      Queue mf [2, 3] ∧ (mf.mem 1).done = 1 := by
  refine ⟨by decide, rfl, rfl, ?_⟩
  obtain ⟨mf, h1, _, h3, _, h5⟩ :=
    (mutual_exclusion busy12 1 3 [2] (by decide) rfl (by decide) rfl).2 1 8 (by decide)
  exact ⟨mf, h1, h3, h5⟩

end SPI
